import Mathlib

/-!
# Verification of the sandboxed file-management core of `vscode-for-web`

This file shallowly embeds the Go file service (`LocalFileServiceImpl`, package
`core`) and the HTTP request handler (`FSHandler`, package `main`,
`server/fs_handler.go`, together with the revision-variant handler kept in
`web/build.sh`) of the repository, and proves or refutes the frozen claims
about them.

Modelling conventions:
* Go strings are embedded as `List Char` (`GoStr`); all the path functions of
  `path/filepath` used by the source (`Clean`, `Join`, `Abs`, `Base`, `Dir`,
  `Ext`) are re-implemented here for Unix paths (`os.PathSeparator = '/'`),
  following the Go standard library, as executable Lean functions.
* The OS file system is embedded as a finite association list from absolute
  paths (represented as their non-empty segment lists) to nodes (regular file
  with byte content, or directory).  The OS root `/` always exists as a
  directory.  Symlinks, sockets, fifos, permissions and timestamps are not
  represented; none of the claims under verification mention them.
* `filepath.Abs` consults the process working directory for relative inputs;
  the working directory is threaded as an explicit `cwd` parameter so the
  embedding stays pure.
* Fallible OS calls return `Except OsCode`; the file service returns
  `Except FsErr` mirroring the sentinel errors of the source.
-/

set_option maxRecDepth 10000

/-- Go strings, embedded as lists of characters. -/
abbrev GoStr := List Char

/-- `true` iff the path begins with the Unix path separator
(`strings.HasPrefix(p, "/")` / `filepath.IsAbs` for Unix). -/
def startsWithSlash (p : GoStr) : Bool := p.head? = some '/'

/-- `true` iff the path ends with the Unix path separator
(`strings.HasSuffix(p, "/")`). -/
def endsWithSlash (p : GoStr) : Bool := p.getLast? = some '/'

/-- Split on `'/'`; mirrors how `filepath.Clean` walks the elements of a path.
`splitSlash "a/b" = ["a","b"]`, `splitSlash "/a" = ["","a"]`,
`splitSlash "" = [""]`. -/
def splitSlash : GoStr → List GoStr
  | [] => [[]]
  | c :: rest =>
    if c = '/' then [] :: splitSlash rest
    else (c :: (splitSlash rest).headI) :: (splitSlash rest).tail

/-- Join segments with `'/'` between them. -/
def joinSegs : List GoStr → GoStr
  | [] => []
  | [s] => s
  | s :: rest => s ++ '/' :: joinSegs rest

/-- One step of the lexical-cleaning stack machine of `filepath.Clean`:
empty and `.` elements are dropped, `..` pops a regular element (or is dropped
at the root of a rooted path, or kept at the head of a relative path), and
every other element is pushed.  The stack is kept in reverse order (top
first). -/
def cleanPush (rooted : Bool) (stack : List GoStr) (seg : GoStr) : List GoStr :=
  if seg = [] ∨ seg = ['.'] then stack
  else if seg = ['.', '.'] then
    if stack = [] then (if rooted then [] else [['.', '.']])
    else if stack.headI = ['.', '.'] then seg :: stack else stack.tail
  else seg :: stack

/-- Run the cleaning machine over a list of segments from a given stack. -/
def runClean (rooted : Bool) (st : List GoStr) (segs : List GoStr) : List GoStr :=
  segs.foldl (cleanPush rooted) st

/-- The cleaned segment sequence of a path, in path order. -/
def cleanSegs (rooted : Bool) (segs : List GoStr) : List GoStr :=
  (runClean rooted [] segs).reverse

/-- Reassemble a cleaned segment sequence into a path string, as
`filepath.Clean` does: rooted paths get a leading `/`, an empty relative
result becomes `.`. -/
def renderPath (rooted : Bool) (segs : List GoStr) : GoStr :=
  if rooted then '/' :: joinSegs segs
  else if segs = [] then ['.'] else joinSegs segs

/-- `filepath.Clean` for Unix paths (Go standard library). -/
def goClean (p : GoStr) : GoStr :=
  if p = [] then ['.']
  else renderPath (startsWithSlash p) (cleanSegs (startsWithSlash p) (splitSlash p))

/-- `filepath.Join(a, b)` for Unix paths: the elements starting from the first
non-empty one are joined with `/` and cleaned; all-empty input yields `""`. -/
def goJoin2 (a b : GoStr) : GoStr :=
  if a = [] ∧ b = [] then []
  else if a = [] then goClean b
  else goClean (a ++ '/' :: b)

/-- Drop trailing `'/'` characters. -/
def dropTrailingSlashes (p : GoStr) : GoStr :=
  (p.reverse.dropWhile (fun c => c = '/')).reverse

/-- The maximal suffix not containing `'/'`. -/
def lastSeg (p : GoStr) : GoStr :=
  (p.reverse.takeWhile (fun c => c ≠ '/')).reverse

/-- `filepath.Base` for Unix paths: strip trailing separators, then keep the
last element; `""` gives `"."`, an all-separator path gives `"/"`. -/
def goBase (p : GoStr) : GoStr :=
  if p = [] then ['.']
  else
    let q := dropTrailingSlashes p
    if q = [] then ['/'] else lastSeg q

/-- The longest strict initial part of the path up to and including the last
`'/'`, if the path contains one. -/
def upToLastSlash? : GoStr → Option GoStr
  | [] => none
  | c :: rest =>
    match upToLastSlash? rest with
    | some t => some (c :: t)
    | none => if c = '/' then some ['/'] else none

/-- `filepath.Dir` for Unix paths: everything up to the final separator,
cleaned; a path without separator has directory `"."`. -/
def goDir (p : GoStr) : GoStr :=
  match upToLastSlash? p with
  | none => ['.']
  | some d => goClean d

/-- `filepath.Ext`: the suffix beginning at the final dot of the final
element, empty if there is none. -/
def goExt (p : GoStr) : GoStr :=
  let rev := p.reverse.takeWhile (fun c => c ≠ '/')
  if rev.elem '.' then ((rev.takeWhile (fun c => c ≠ '.')) ++ ['.']).reverse else []

/-- ASCII white space, modelling `unicode.IsSpace` on the inputs that occur
here. -/
def isSpaceChar (c : Char) : Bool :=
  c = ' ' ∨ c = '\t' ∨ c = '\n' ∨ c = '\r' ∨ c = '\x0b' ∨ c = '\x0c'

/-- `strings.TrimSpace` (restricted to ASCII white space). -/
def goTrimSpace (s : GoStr) : GoStr :=
  ((s.dropWhile isSpaceChar).reverse.dropWhile isSpaceChar).reverse

/-- `filepath.Abs`: already-absolute paths are cleaned; relative paths are
joined onto the working directory (`Getwd`), which is threaded explicitly as
`cwd`. -/
def goAbs (cwd p : GoStr) : GoStr :=
  if startsWithSlash p then goClean p else goJoin2 cwd p

/-! ## Error taxonomy -/

/-- Raw OS error codes, as carried by the `*PathError`s of the Go `os`
package. -/
inductive OsCode
  | enoent | eexist | eisdir | enotdir | enotempty | eperm | other
deriving DecidableEq, Repr

/-- The `Error()` strings of the raw OS errors (Linux `syscall` messages). -/
def osCodeMessage : OsCode → GoStr
  | .enoent => "no such file or directory".data
  | .eexist => "file exists".data
  | .eisdir => "is a directory".data
  | .enotdir => "not a directory".data
  | .enotempty => "directory not empty".data
  | .eperm => "permission denied".data
  | .other => "input/output error".data

/-- The error kinds returned by the file service: the seven `errors.New`
sentinels declared at the top of the service source, plus OS errors that the
service surfaces verbatim. -/
inductive FsErr
  | pathTraversal
  | notFound
  | isDirectory
  | notDirectory
  | alreadyExists
  | dirNotEmpty
  | missingNewName
  | osErr (c : OsCode)
deriving DecidableEq, Repr

deriving instance DecidableEq for Except

/-- `Error()` strings of the service errors, copied from the source's
`errors.New` calls. -/
def errMessage : FsErr → GoStr
  | .pathTraversal => "invalid path: traversal outside root is not allowed".data
  | .notFound => "path not found".data
  | .isDirectory => "path is a directory".data
  | .notDirectory => "path is not a directory".data
  | .alreadyExists => "already exists".data
  | .dirNotEmpty => "directory not empty".data
  | .missingNewName => "missing new name".data
  | .osErr c => osCodeMessage c

/-- `os.IsNotExist`: true only for (wrapped) `ENOENT` OS errors; the plain
`errors.New` sentinels of the service never satisfy it. -/
def osIsNotExist : FsErr → Bool
  | .osErr .enoent => true
  | _ => false

/-- `os.IsPermission`: true only for (wrapped) permission OS errors. -/
def osIsPermission : FsErr → Bool
  | .osErr .eperm => true
  | _ => false

/-! ## File-system model -/

/-- A file-system node: a regular file with its byte content, or a
directory. -/
inductive Node
  | file (data : List Nat)
  | dir
deriving DecidableEq, Repr

/-- An absolute path, as its list of non-empty segments (the OS root `/` is
`[]`). -/
abbrev FsKey := List GoStr

/-- The file system: a finite association list from absolute paths to
nodes. -/
abbrev FS := List (FsKey × Node)

/-- First-match association lookup. -/
def lookupFS (fs : FS) (k : FsKey) : Option Node :=
  match fs with
  | [] => none
  | (k', n) :: rest => if k' = k then some n else lookupFS rest k

/-- Remove every binding of a key. -/
def eraseFS (fs : FS) (k : FsKey) : FS :=
  fs.filter (fun e => e.1 ≠ k)

/-- Bind a key to a node, replacing any previous binding. -/
def insertFS (fs : FS) (k : FsKey) (n : Node) : FS :=
  (k, n) :: eraseFS fs k

/-- `os.Stat` as a total observation: the OS root `/` always exists as a
directory. -/
def statFS (fs : FS) (k : FsKey) : Option Node :=
  if k = [] then some .dir else lookupFS fs k

/-- The segment list of an absolute path string. -/
def segsOf (p : GoStr) : FsKey :=
  (splitSlash p).filter (fun s => s ≠ [])

/-- Names of the direct children of a directory, from the stored keys
(mirrors `File.Readdirnames` / `os.ReadDir`). -/
def childNames (fs : FS) (k : FsKey) : List GoStr :=
  (fs.filter (fun e => e.1.length = k.length + 1 ∧ k.isPrefixOf e.1)).map
    (fun e => e.1.getLastD [])

/-- Direct children of a directory together with their nodes. -/
def childEntries (fs : FS) (k : FsKey) : List (GoStr × Node) :=
  (fs.filter (fun e => e.1.length = k.length + 1 ∧ k.isPrefixOf e.1)).map
    (fun e => (e.1.getLastD [], e.2))

/-! ## OS operations on the model -/

/-- `os.Stat` as a fallible call. -/
def osStat (fs : FS) (k : FsKey) : Except OsCode Node :=
  match statFS fs k with
  | some n => .ok n
  | none => .error .enoent

/-- All ancestors of a key, shortest first, the key itself included. -/
def keyInits (k : FsKey) : List FsKey := k.inits

/-- `os.MkdirAll`: fails with `ENOTDIR` when some ancestor exists as a file
(creating nothing); otherwise creates every missing ancestor directory and
the directory itself. -/
def osMkdirAll (fs : FS) (k : FsKey) : Except OsCode FS :=
  if (keyInits k).any (fun q =>
      match statFS fs q with
      | some (.file _) => true
      | _ => false)
  then .error .enotdir
  else .ok ((keyInits k).foldl
      (fun acc q => if statFS acc q = none then insertFS acc q .dir else acc) fs)

/-- `os.Create`: truncating create of a regular file; fails on a directory
target or a missing/non-directory parent. -/
def osCreate (fs : FS) (k : FsKey) : Except OsCode FS :=
  match statFS fs k with
  | some .dir => .error .eisdir
  | _ =>
    match statFS fs k.dropLast with
    | some .dir => .ok (insertFS fs k (.file []))
    | some (.file _) => .error .enotdir
    | none => .error .enoent

/-- Replace the content of an (open) regular file; used for the bytes a
stream copy has written into a freshly created file. -/
def osWriteFull (fs : FS) (k : FsKey) (data : List Nat) : FS :=
  insertFS fs k (.file data)

/-- `os.WriteFile`: truncating write; fails on a directory target or a
missing/non-directory parent. -/
def osWriteFileOS (fs : FS) (k : FsKey) (data : List Nat) : Except OsCode FS :=
  match statFS fs k with
  | some .dir => .error .eisdir
  | _ =>
    match statFS fs k.dropLast with
    | some .dir => .ok (insertFS fs k (.file data))
    | some (.file _) => .error .enotdir
    | none => .error .enoent

/-- `os.Remove`: removes a file or an empty directory. -/
def osRemove (fs : FS) (k : FsKey) : Except OsCode FS :=
  match statFS fs k with
  | none => .error .enoent
  | some (.file _) => .ok (eraseFS fs k)
  | some .dir =>
    if childNames fs k = [] then .ok (eraseFS fs k) else .error .enotempty

/-- `os.Remove` with the error discarded (the source ignores the result of
the clean-up `os.Remove(tmp)` calls). -/
def osRemoveQuiet (fs : FS) (k : FsKey) : FS :=
  match osRemove fs k with
  | .ok fs' => fs'
  | .error _ => fs

/-- `os.RemoveAll`: removes the key and its whole subtree, never failing in
this model. -/
def osRemoveAll (fs : FS) (k : FsKey) : FS :=
  fs.filter (fun e => ¬ k.isPrefixOf e.1)

/-- Re-key a subtree under a new parent (the directory case of `rename`). -/
def moveSubtree (fs : FS) (src dst : FsKey) : FS :=
  fs.map (fun e => if src.isPrefixOf e.1 then (dst ++ e.1.drop src.length, e.2) else e)

/-- POSIX `rename`, as used by `os.Rename`: a file may replace a file but not
a directory; a directory may replace only an empty directory. -/
def osRename (fs : FS) (src dst : FsKey) : Except OsCode FS :=
  match statFS fs src with
  | none => .error .enoent
  | some (.file d) =>
    match statFS fs dst with
    | some .dir => .error .eisdir
    | _ => .ok (insertFS (eraseFS fs src) dst (.file d))
  | some .dir =>
    match statFS fs dst with
    | some (.file _) => .error .enotdir
    | some .dir =>
      if childNames fs dst = [] then .ok (moveSubtree (eraseFS fs dst) src dst)
      else .error .enotempty
    | none => .ok (moveSubtree fs src dst)

/-! ## The file service (`LocalFileServiceImpl`, package `core`) -/

/-- `LocalFileServiceImpl.resolve`: trims one leading separator, joins with
the root, cleans, takes the absolute form, and rejects with `PathTraversal`
unless the result equals the root or extends `root + "/"` as a string
prefix. -/
def resolve (cwd root rel : GoStr) : Except FsErr GoStr :=
  let rel1 := if startsWithSlash rel then rel.drop 1 else rel
  let joined := goJoin2 root rel1
  let cleaned := goClean joined
  let abs := goAbs cwd cleaned
  let rootWithSep := if endsWithSlash root then root else root ++ ['/']
  if abs ≠ root ∧ ¬ rootWithSep.isPrefixOf abs then .error .pathTraversal
  else .ok abs

/-- `resolve`, viewed as a (trivially state-preserving) operation on the file
system: the source performs no OS call between entering `resolve` and
returning. -/
def resolveOp (cwd root : GoStr) (fs : FS) (rel : GoStr) : Except FsErr GoStr × FS :=
  (resolve cwd root rel, fs)

/-- `LocalFileServiceImpl.Stat`: resolve, then `os.Stat`, mapping `ENOENT` to
the `ErrNotFound` sentinel. -/
def svcStat (cwd root : GoStr) (fs : FS) (rel : GoStr) : Except FsErr Node :=
  match resolve cwd root rel with
  | .error e => .error e
  | .ok abs =>
    match osStat fs (segsOf abs) with
    | .error .enoent => .error .notFound
    | .error c => .error (.osErr c)
    | .ok n => .ok n

/-- `LocalFileServiceImpl.List`: stat, require a directory, read the
entries. -/
def svcList (cwd root : GoStr) (fs : FS) (rel : GoStr) :
    Except FsErr (List (GoStr × Node)) :=
  match resolve cwd root rel with
  | .error e => .error e
  | .ok abs =>
    match osStat fs (segsOf abs) with
    | .error .enoent => .error .notFound
    | .error c => .error (.osErr c)
    | .ok (.file _) => .error .notDirectory
    | .ok .dir => .ok (childEntries fs (segsOf abs))

/-- `LocalFileServiceImpl.ReadFile`: stat, reject directories, read the whole
content. -/
def svcReadFile (cwd root : GoStr) (fs : FS) (rel : GoStr) :
    Except FsErr (List Nat) :=
  match resolve cwd root rel with
  | .error e => .error e
  | .ok abs =>
    match osStat fs (segsOf abs) with
    | .error .enoent => .error .notFound
    | .error c => .error (.osErr c)
    | .ok .dir => .error .isDirectory
    | .ok (.file d) => .ok d

/-- `LocalFileServiceImpl.WriteFile`: resolve, ensure the parent directory
tree exists, then (when `create` is false) require the target to exist, then
write. -/
def svcWriteFile (cwd root : GoStr) (fs : FS) (rel : GoStr) (data : List Nat)
    (create : Bool) : Except FsErr Unit × FS :=
  match resolve cwd root rel with
  | .error e => (.error e, fs)
  | .ok abs =>
    match osMkdirAll fs (segsOf (goDir abs)) with
    | .error c => (.error (.osErr c), fs)
    | .ok fs1 =>
      if create = false ∧ statFS fs1 (segsOf abs) = none then (.error .notFound, fs1)
      else
        match osWriteFileOS fs1 (segsOf abs) data with
        | .error c => (.error (.osErr c), fs1)
        | .ok fs2 => (.ok (), fs2)

/-- The readable source handed to `SaveStream`, together with the outcome the
OS gives the copy and the close: `chunks` are the bytes successfully read
(and hence written to the temporary file), `copyFail` is the error `io.Copy`
ends with (if any), `closeFail` the error of `File.Close`. -/
structure StreamSrc where
  chunks : List Nat
  copyFail : Option OsCode
  closeFail : Option OsCode
deriving DecidableEq, Repr

/-- `LocalFileServiceImpl.SaveStream`: resolve, ensure the parent tree, fail
`AlreadyExists` when `overwrite` is off and the destination exists, then copy
into the sibling `<name>.part` file, removing it on copy/close failure and
renaming it onto the destination on success. -/
def svcSaveStream (cwd root : GoStr) (fs : FS) (rel : GoStr) (r : StreamSrc)
    (overwrite : Bool) : Except FsErr Unit × FS :=
  match resolve cwd root rel with
  | .error e => (.error e, fs)
  | .ok abs =>
    match osMkdirAll fs (segsOf (goDir abs)) with
    | .error c => (.error (.osErr c), fs)
    | .ok fs1 =>
      if overwrite = false ∧ (statFS fs1 (segsOf abs)).isSome then
        (.error .alreadyExists, fs1)
      else
        let tmp := abs ++ ".part".data
        match osCreate fs1 (segsOf tmp) with
        | .error c => (.error (.osErr c), fs1)
        | .ok fs2 =>
          let fs3 := osWriteFull fs2 (segsOf tmp) r.chunks
          match r.copyFail with
          | some c => (.error (.osErr c), osRemoveQuiet fs3 (segsOf tmp))
          | none =>
            match r.closeFail with
            | some c => (.error (.osErr c), osRemoveQuiet fs3 (segsOf tmp))
            | none =>
              match osRename fs3 (segsOf tmp) (segsOf abs) with
              | .error c => (.error (.osErr c), fs3)
              | .ok fs4 => (.ok (), fs4)

/-- `LocalFileServiceImpl.Delete`: removes a file or an empty directory,
failing `ErrDirNotEmpty` when `Readdirnames` finds an entry. -/
def svcDelete (cwd root : GoStr) (fs : FS) (rel : GoStr) : Except FsErr Unit × FS :=
  match resolve cwd root rel with
  | .error e => (.error e, fs)
  | .ok abs =>
    match osStat fs (segsOf abs) with
    | .error .enoent => (.error .notFound, fs)
    | .error c => (.error (.osErr c), fs)
    | .ok .dir =>
      if childNames fs (segsOf abs) ≠ [] then (.error .dirNotEmpty, fs)
      else
        match osRemove fs (segsOf abs) with
        | .error c => (.error (.osErr c), fs)
        | .ok fs' => (.ok (), fs')
    | .ok (.file _) =>
      match osRemove fs (segsOf abs) with
      | .error c => (.error (.osErr c), fs)
      | .ok fs' => (.ok (), fs')

/-- `LocalFileServiceImpl.DeleteRecursive`: requires the target to exist,
then `os.RemoveAll`. -/
def svcDeleteRecursive (cwd root : GoStr) (fs : FS) (rel : GoStr) :
    Except FsErr Unit × FS :=
  match resolve cwd root rel with
  | .error e => (.error e, fs)
  | .ok abs =>
    match osStat fs (segsOf abs) with
    | .error .enoent => (.error .notFound, fs)
    | .error c => (.error (.osErr c), fs)
    | .ok _ => (.ok (), osRemoveAll fs (segsOf abs))

/-- `LocalFileServiceImpl.MkdirAll`. -/
def svcMkdirAll (cwd root : GoStr) (fs : FS) (rel : GoStr) : Except FsErr Unit × FS :=
  match resolve cwd root rel with
  | .error e => (.error e, fs)
  | .ok abs =>
    match osMkdirAll fs (segsOf abs) with
    | .error c => (.error (.osErr c), fs)
    | .ok fs' => (.ok (), fs')

/-- `LocalFileServiceImpl.Rename`: fails `MissingNewName` on a blank
destination, requires the source to exist, resolves the destination, fails
`AlreadyExists` when `overwrite` is off and the destination exists, then
`os.Rename`. -/
def svcRename (cwd root : GoStr) (fs : FS) (relPath newPath : GoStr)
    (overwrite : Bool) : Except FsErr Unit × FS :=
  if goTrimSpace newPath = [] then (.error .missingNewName, fs)
  else
    match resolve cwd root relPath with
    | .error e => (.error e, fs)
    | .ok absSrc =>
      match osStat fs (segsOf absSrc) with
      | .error .enoent => (.error .notFound, fs)
      | .error c => (.error (.osErr c), fs)
      | .ok _ =>
        match resolve cwd root newPath with
        | .error e => (.error e, fs)
        | .ok absDst =>
          if overwrite = false ∧ (statFS fs (segsOf absDst)).isSome then
            (.error .alreadyExists, fs)
          else
            match osRename fs (segsOf absSrc) (segsOf absDst) with
            | .error c => (.error (.osErr c), fs)
            | .ok fs' => (.ok (), fs')

/-- Modelled from the spec: the two-argument `RenameDir` the request handler
calls (its implementation is not among the source files; only the interface
declaration and the call sites are).  Per §4.2 Rename/Move it resolves both
endpoints through the path resolver and moves with `os.Rename` semantics
(which overwrite a file destination). -/
def svcRenameDir (cwd root : GoStr) (fs : FS) (oldRel newRel : GoStr) :
    Except FsErr Unit × FS :=
  svcRename cwd root fs oldRel newRel true

/-! ## MIME detection and base64 (Go standard library models) -/

/-- The built-in extension table of Go's `mime` package (Unix build without
system `mime.types` files; keys are lower-case). -/
def mimeTypeByExtension (ext : GoStr) : GoStr :=
  if ext = ".avif".data then "image/avif".data
  else if ext = ".css".data then "text/css; charset=utf-8".data
  else if ext = ".gif".data then "image/gif".data
  else if ext = ".htm".data then "text/html; charset=utf-8".data
  else if ext = ".html".data then "text/html; charset=utf-8".data
  else if ext = ".jpeg".data then "image/jpeg".data
  else if ext = ".jpg".data then "image/jpeg".data
  else if ext = ".js".data then "text/javascript; charset=utf-8".data
  else if ext = ".json".data then "application/json".data
  else if ext = ".mjs".data then "text/javascript; charset=utf-8".data
  else if ext = ".pdf".data then "application/pdf".data
  else if ext = ".png".data then "image/png".data
  else if ext = ".svg".data then "image/svg+xml".data
  else if ext = ".wasm".data then "application/wasm".data
  else if ext = ".webp".data then "image/webp".data
  else if ext = ".xml".data then "text/xml; charset=utf-8".data
  else []

/-- The "binary data byte" test of `http.DetectContentType`'s final
plain-text heuristic. -/
def isBinaryByte (b : Nat) : Bool :=
  b ≤ 0x08 ∨ b = 0x0B ∨ (0x0E ≤ b ∧ b ≤ 0x1A) ∨ (0x1C ≤ b ∧ b ≤ 0x1F)

/-- `http.DetectContentType`, modelled with the byte-order-mark signatures
and the final text/binary heuristic; the magic-number table for media and
archive formats is omitted (no claim under verification concerns such
content). -/
def httpDetectContentType (data : List Nat) : GoStr :=
  let data := data.take 512
  if [0xEF, 0xBB, 0xBF].isPrefixOf data then "text/plain; charset=utf-8".data
  else if [0xFE, 0xFF].isPrefixOf data then "text/plain; charset=utf-16be".data
  else if [0xFF, 0xFE].isPrefixOf data then "text/plain; charset=utf-16le".data
  else if data.any isBinaryByte then "application/octet-stream".data
  else "text/plain; charset=utf-8".data

/-- `LocalFileServiceImpl.DetectMIMEType`: extension lookup first, then
content sniffing of at most 512 bytes (a read error is ignored and sniffing
proceeds on the bytes obtained, none for a directory). -/
def svcDetectMIMEType (cwd root : GoStr) (fs : FS) (rel : GoStr) :
    Except FsErr GoStr :=
  match resolve cwd root rel with
  | .error e => .error e
  | .ok abs =>
    let ext := goExt abs
    if ext ≠ [] ∧ mimeTypeByExtension ext ≠ [] then .ok (mimeTypeByExtension ext)
    else
      match statFS fs (segsOf abs) with
      | none => .error (.osErr .enoent)
      | some (.file d) => .ok (httpDetectContentType (d.take 512))
      | some .dir => .ok (httpDetectContentType [])

/-- The base64 standard alphabet. -/
def b64Table : GoStr :=
  "ABCDEFGHIJKLMNOPQRSTUVWXYZabcdefghijklmnopqrstuvwxyz0123456789+/".data

/-- The alphabet character of a 6-bit value. -/
def b64Char (n : Nat) : Char := b64Table.getD n 'A'

/-- `base64.StdEncoding.EncodeToString`. -/
def base64Encode : List Nat → GoStr
  | [] => []
  | [a] => [b64Char (a / 4), b64Char (a % 4 * 16), '=', '=']
  | [a, b] => [b64Char (a / 4), b64Char (a % 4 * 16 + b / 16), b64Char (b % 16 * 4), '=']
  | a :: b :: c :: rest =>
    [b64Char (a / 4), b64Char (a % 4 * 16 + b / 16), b64Char (b % 16 * 4 + c / 64),
      b64Char (c % 64)] ++ base64Encode rest

/-- The 6-bit value of an alphabet character, if any. -/
def b64Val (c : Char) : Option Nat :=
  b64Table.findIdx? (fun x => x = c)

/-- `base64.StdEncoding.DecodeString`: input length must be a multiple of
four, characters must come from the alphabet, `=` padding only at the very
end. -/
def base64Decode : GoStr → Option (List Nat)
  | [] => some []
  | c1 :: c2 :: c3 :: c4 :: rest =>
    match b64Val c1, b64Val c2 with
    | some v1, some v2 =>
      if c3 = '=' then
        if c4 = '=' ∧ rest = [] then some [v1 * 4 + v2 / 16] else none
      else
        match b64Val c3 with
        | none => none
        | some v3 =>
          if c4 = '=' then
            if rest = [] then some [v1 * 4 + v2 / 16, v2 % 16 * 16 + v3 / 4] else none
          else
            match b64Val c4 with
            | none => none
            | some v4 =>
              (base64Decode rest).map
                (fun tail =>
                  (v1 * 4 + v2 / 16) :: (v2 % 16 * 16 + v3 / 4) :: (v3 % 4 * 64 + v4) :: tail)
    | _, _ => none
  | _ => none

/-! ## The request handler (`FSHandler`, `server/fs_handler.go`)

`rel` below is always the output of `pathFromCtx` (the percent-decoded
wildcard segment with one leading separator trimmed).  HTTP responses are
modelled as a status code plus an abstract rendering of the JSON or binary
body; response headers other than the body are not represented except where
stated. -/

/-- Abstracted response bodies of the handler. -/
inductive RespBody
  | errMsg (msg : GoStr)
  | success
  | statJson (type_ : GoStr) (size : Nat)
  | listJson (entries : List (GoStr × GoStr × Nat))
  | content (mime : GoStr) (data : GoStr)
  | uploadedJson (names : List GoStr)
  | createdJson (path : GoStr)
deriving DecidableEq, Repr

/-- An HTTP response: status code and body. -/
abbrev HttpResp := Nat × RespBody

/-- `strings.Contains(s, sub)`. -/
def containsSub : GoStr → GoStr → Bool
  | [], sub => sub.isPrefixOf []
  | c :: rest, sub => sub.isPrefixOf (c :: rest) || containsSub rest sub

/-- `mapLocalFileServiceError` of `server/fs_handler.go`: only
`os.IsNotExist` and `os.IsPermission` are classified; everything else
becomes a 500 carrying the error text. -/
def mapLocalFileServiceError (e : FsErr) : HttpResp :=
  if osIsNotExist e then (404, .errMsg "Path not found".data)
  else if osIsPermission e then (403, .errMsg "Permission denied".data)
  else (500, .errMsg (errMessage e))

/-- `mapLocalFileServiceError` of the revision-variant handler kept in
`web/build.sh`: additionally classifies any error whose text contains
`"not found"` as a 404. -/
def mapLocalFileServiceErrorRev (e : FsErr) : HttpResp :=
  if osIsNotExist e ∨ containsSub (errMessage e) "not found".data then
    (404, .errMsg "Path not found".data)
  else if osIsPermission e then (403, .errMsg "Permission denied".data)
  else (500, .errMsg (errMessage e))

/-- `fileTypeOf`, restricted to the node kinds the model represents
(symlinks, sockets and fifos are not modelled). -/
def fileTypeOf : Node → GoStr
  | .dir => "directory".data
  | .file _ => "file".data

/-- The `Size()` of a node in the model. -/
def nodeSize : Node → Nat
  | .file d => d.length
  | .dir => 0

/-- `FSHandler.Get`: metadata when `stat=true`, a JSON listing for a
directory, otherwise the base64-encoded file content with the detected MIME
type (the `download` content-disposition header is not represented). -/
def handlerGet (cwd root : GoStr) (fs : FS) (rel : GoStr) (statQ : Bool) : HttpResp :=
  match svcStat cwd root fs rel with
  | .error e => mapLocalFileServiceError e
  | .ok fi =>
    if statQ then (200, .statJson (fileTypeOf fi) (nodeSize fi))
    else
      match fi with
      | .dir =>
        match svcList cwd root fs rel with
        | .error e => mapLocalFileServiceError e
        | .ok items =>
          (200, .listJson (items.map (fun it => (it.1, fileTypeOf it.2, nodeSize it.2))))
      | .file _ =>
        match svcReadFile cwd root fs rel with
        | .error e => mapLocalFileServiceError e
        | .ok data =>
          let mime := match svcDetectMIMEType cwd root fs rel with
            | .ok m => m
            | .error _ => []
          (200, .content mime (base64Encode data))

/-- `FSHandler.Put`: a directory target is renamed via the `new_name` query
parameter; a file target (or a missing one — the initial `Stat` decides) has
its base64-decoded body written with `create=false`. -/
def handlerPut (cwd root : GoStr) (fs : FS) (rel : GoStr) (newNameQ : GoStr)
    (body : GoStr) : HttpResp × FS :=
  match svcStat cwd root fs rel with
  | .error e => (mapLocalFileServiceError e, fs)
  | .ok .dir =>
    if goTrimSpace newNameQ = [] then
      ((400, .errMsg "missing new_name for directory rename".data), fs)
    else
      match svcRenameDir cwd root fs rel newNameQ with
      | (.error e, fs') => (mapLocalFileServiceError e, fs')
      | (.ok _, fs') => ((200, .success), fs')
  | .ok (.file _) =>
    match base64Decode body with
    | none => ((400, .errMsg "invalid base64".data), fs)
    | some decoded =>
      match svcWriteFile cwd root fs rel decoded false with
      | (.error e, fs') => (mapLocalFileServiceError e, fs')
      | (.ok _, fs') => ((200, .success), fs')

/-- `FSHandler.Delete`: `recursive=true` delegates to `DeleteRecursive`;
otherwise `Delete`, with any error whose text contains
`"directory not empty"` turned into a 400 guidance response. -/
def handlerDelete (cwd root : GoStr) (fs : FS) (rel : GoStr) (recursiveQ : Bool) :
    HttpResp × FS :=
  if recursiveQ then
    match svcDeleteRecursive cwd root fs rel with
    | (.error e, fs') => (mapLocalFileServiceError e, fs')
    | (.ok _, fs') => ((200, .success), fs')
  else
    match svcDelete cwd root fs rel with
    | (.error e, fs') =>
      if containsSub (errMessage e) "directory not empty".data then
        ((400, .errMsg "directory not empty (use recursive=true)".data), fs')
      else (mapLocalFileServiceError e, fs')
    | (.ok _, fs') => ((200, .success), fs')

/-- One part of a multipart upload: the client-supplied file name and the
stream it opens to. -/
structure MultipartFile where
  filename : GoStr
  src : StreamSrc
deriving DecidableEq, Repr

/-- The body of the upload loop of `FSHandler.Post` for one file part: take
the base name of the client-supplied filename, join it to the target
directory, and stream it via `SaveStream`.  Returns the error response (if
any), the recorded name, and the resulting file system. -/
def handlerUploadOne (cwd root : GoStr) (fs : FS) (rel : GoStr)
    (fh : MultipartFile) (overwrite : Bool) : Option HttpResp × GoStr × FS :=
  let name := goBase fh.filename
  let destRel := if rel = [] then name else goJoin2 rel name
  match svcSaveStream cwd root fs destRel fh.src overwrite with
  | (.error e, fs') => (some (mapLocalFileServiceError e), name, fs')
  | (.ok _, fs') => (none, name, fs')

/-- The upload loop of `FSHandler.Post`: parts are streamed in order, the
first failure aborts with its mapped error response, success answers 201
with the uploaded names. -/
def uploadFiles (cwd root : GoStr) (rel : GoStr) (overwrite : Bool) :
    FS → List GoStr → List MultipartFile → HttpResp × FS
  | fs, acc, [] => ((201, .uploadedJson acc.reverse), fs)
  | fs, acc, fh :: rest =>
    match handlerUploadOne cwd root fs rel fh overwrite with
    | (some resp, _, fs') => (resp, fs')
    | (none, name, fs') => uploadFiles cwd root rel overwrite fs' (name :: acc) rest

/-- The multipart branch of `FSHandler.Post`: a non-root target must stat as
a directory; then every part is uploaded. -/
def handlerPostUpload (cwd root : GoStr) (fs : FS) (rel : GoStr)
    (files : List MultipartFile) (overwrite : Bool) : HttpResp × FS :=
  if rel ≠ [] then
    match svcStat cwd root fs rel with
    | .error e => (mapLocalFileServiceError e, fs)
    | .ok (.file _) => ((400, .errMsg "target path is not a directory".data), fs)
    | .ok .dir =>
      if files = [] then ((400, .errMsg "no files provided".data), fs)
      else uploadFiles cwd root rel overwrite fs [] files
  else
    if files = [] then ((400, .errMsg "no files provided".data), fs)
    else uploadFiles cwd root rel overwrite fs [] files

/-- The JSON branch of `FSHandler.Post` (`{"name": ...}`): create a
subfolder, after checking the parent is a directory and the target does not
already stat. -/
def handlerPostMkdir (cwd root : GoStr) (fs : FS) (rel : GoStr)
    (nameField : GoStr) : HttpResp × FS :=
  if goTrimSpace nameField = [] then
    ((400, .errMsg "invalid body: missing name".data), fs)
  else
    let newRel := if rel = [] then nameField else goJoin2 rel nameField
    let go : HttpResp × FS :=
      match svcStat cwd root fs newRel with
      | .ok _ => ((409, .errMsg "folder exists".data), fs)
      | .error _ =>
        match svcMkdirAll cwd root fs newRel with
        | (.error e, fs') => (mapLocalFileServiceError e, fs')
        | (.ok _, fs') => ((201, .createdJson newRel), fs')
    if rel ≠ [] then
      match svcStat cwd root fs rel with
      | .error e => (mapLocalFileServiceError e, fs)
      | .ok (.file _) => ((400, .errMsg "parent is not a directory".data), fs)
      | .ok .dir => go
    else go

/-! ## Basic facts about the file-system model -/

theorem lookupFS_eraseFS (fs : FS) (k q : FsKey) :
    lookupFS (eraseFS fs k) q = if q = k then none else lookupFS fs q := by
  induction fs with
  | nil =>
    simp only [eraseFS, List.filter_nil, lookupFS]
    split <;> rfl
  | cons e rest ih =>
    obtain ⟨ek, en⟩ := e
    by_cases hek : ek = k
    · have h1 : eraseFS ((ek, en) :: rest) k = eraseFS rest k := by
        simp [eraseFS, List.filter_cons, hek]
      rw [h1, ih]
      by_cases hqk : q = k
      · simp [hqk]
      · have hne : ek ≠ q := by
          rw [hek]
          exact fun h => hqk h.symm
        simp [lookupFS, hne, hqk]
    · have h1 : eraseFS ((ek, en) :: rest) k = (ek, en) :: eraseFS rest k := by
        simp [eraseFS, List.filter_cons, hek]
      rw [h1]
      show (if ek = q then some en else lookupFS (eraseFS rest k) q) = _
      by_cases heq : ek = q
      · have hqk : q ≠ k := fun h => hek (heq.trans h)
        simp [lookupFS, heq, hqk]
      · rw [if_neg heq, ih]
        by_cases hqk : q = k <;> simp [lookupFS, hqk, heq]

theorem lookupFS_insertFS (fs : FS) (k q : FsKey) (n : Node) :
    lookupFS (insertFS fs k n) q = if q = k then some n else lookupFS fs q := by
  show (if k = q then some n else lookupFS (eraseFS fs k) q) = _
  by_cases hqk : q = k
  · simp [hqk]
  · rw [if_neg (fun h => hqk h.symm), lookupFS_eraseFS, if_neg hqk, if_neg hqk]

theorem statFS_insertFS_ne (fs : FS) (k q : FsKey) (n : Node) (h : q ≠ k) :
    statFS (insertFS fs k n) q = statFS fs q := by
  by_cases hq : q = [] <;> simp [statFS, hq, lookupFS_insertFS, h]

theorem statFS_eraseFS_ne (fs : FS) (k q : FsKey) (h : q ≠ k) :
    statFS (eraseFS fs k) q = statFS fs q := by
  by_cases hq : q = [] <;> simp [statFS, hq, lookupFS_eraseFS, h]

/-- The directory-creating fold inside `osMkdirAll`. -/
def mkdirStep (acc : FS) (q : FsKey) : FS :=
  if statFS acc q = none then insertFS acc q .dir else acc

theorem osMkdirAll_eq_fold (fs : FS) (k : FsKey) (fs' : FS)
    (h : osMkdirAll fs k = .ok fs') :
    fs' = (keyInits k).foldl mkdirStep fs := by
  unfold osMkdirAll at h
  split at h
  · exact absurd h (by simp)
  · simpa [mkdirStep] using h.symm

theorem mkdirFold_lookup (L : List FsKey) (fs : FS) (q : FsKey)
    (hq : q = [] ∨ q ∉ L) :
    lookupFS (L.foldl mkdirStep fs) q = lookupFS fs q := by
  induction L generalizing fs with
  | nil => rfl
  | cons p rest ih =>
    have hq' : q = [] ∨ q ∉ rest := by
      rcases hq with h | h
      · exact Or.inl h
      · exact Or.inr (fun hmem => h (List.mem_cons_of_mem _ hmem))
    rw [List.foldl_cons, ih _ hq']
    unfold mkdirStep
    split
    · rcases hq with h | h
      · subst h
        rename_i hnone
        by_cases hp : p = []
        · subst hp
          simp [statFS] at hnone
        · rw [lookupFS_insertFS,
            if_neg (fun hh : ([] : FsKey) = p => hp hh.symm)]
      · have hne : q ≠ p := fun he => h (he ▸ List.mem_cons_self _ _)
        rw [lookupFS_insertFS, if_neg hne]
    · rfl

theorem mkdirFold_preserves_dir (L : List FsKey) (fs : FS) (q : FsKey)
    (h : statFS fs q = some .dir) :
    statFS (L.foldl mkdirStep fs) q = some .dir := by
  induction L generalizing fs with
  | nil => exact h
  | cons p rest ih =>
    rw [List.foldl_cons]
    apply ih
    unfold mkdirStep
    split
    · by_cases hqp : q = p
      · subst hqp
        rename_i hnone
        rw [h] at hnone
        cases hnone
      · rw [statFS_insertFS_ne _ _ _ _ hqp]
        exact h
    · exact h

theorem mkdirFold_stat_cases (L : List FsKey) (fs : FS) (q : FsKey) :
    statFS (L.foldl mkdirStep fs) q = statFS fs q ∨
      statFS (L.foldl mkdirStep fs) q = some .dir := by
  induction L generalizing fs with
  | nil => exact Or.inl rfl
  | cons p rest ih =>
    rw [List.foldl_cons]
    rcases ih (mkdirStep fs p) with h | h
    · rw [h]
      unfold mkdirStep
      split
      · by_cases hqp : q = p
        · subst hqp
          right
          by_cases hq0 : q = [] <;> simp [statFS, hq0, lookupFS_insertFS]
        · left
          exact statFS_insertFS_ne _ _ _ _ hqp
      · exact Or.inl rfl
    · exact Or.inr h

theorem mkdirFold_mem (L : List FsKey) (acc : FS) (q : FsKey) (hq : q ∈ L)
    (hnf : ∀ p ∈ L, ∀ d, statFS acc p ≠ some (.file d)) :
    statFS (L.foldl mkdirStep acc) q = some .dir := by
  induction L generalizing acc with
  | nil => cases hq
  | cons p rest ih =>
    rw [List.foldl_cons]
    rcases List.mem_cons.mp hq with hqp | hqrest
    · subst hqp
      apply mkdirFold_preserves_dir
      unfold mkdirStep
      split
      · by_cases hq0 : q = [] <;> simp [statFS, hq0, lookupFS_insertFS]
      · rename_i hne
        cases hstat : statFS acc q with
        | none => exact absurd hstat hne
        | some n =>
          cases n with
          | dir => rfl
          | file d => exact absurd hstat (hnf q (List.mem_cons_self _ _) d)
    · apply ih _ hqrest
      intro p' hp' d
      rcases mkdirFold_stat_cases [p] acc p' with h | h
      · simp only [List.foldl_cons, List.foldl_nil] at h
        rw [h]
        exact hnf p' (List.mem_cons_of_mem _ hp') d
      · simp only [List.foldl_cons, List.foldl_nil] at h
        rw [h]
        simp

theorem osMkdirAll_creates (fs : FS) (k : FsKey) (fs' : FS)
    (h : osMkdirAll fs k = .ok fs') : statFS fs' k = some .dir := by
  have hfold := osMkdirAll_eq_fold fs k fs' h
  subst hfold
  apply mkdirFold_mem
  · simp [keyInits, List.mem_inits]
  · intro p hp d
    unfold osMkdirAll at h
    split at h
    · exact absurd h (by simp)
    · rename_i hany
      rw [List.any_eq_true] at hany
      intro hstat
      exact hany ⟨p, hp, by rw [hstat]⟩

theorem osMkdirAll_lookup (fs : FS) (k : FsKey) (fs' : FS)
    (h : osMkdirAll fs k = .ok fs') (q : FsKey) (hq : q = [] ∨ q ∉ keyInits k) :
    lookupFS fs' q = lookupFS fs q := by
  rw [osMkdirAll_eq_fold fs k fs' h]
  exact mkdirFold_lookup _ fs q hq

/-! ## Lemmas about the path functions -/

theorem splitSlash_ne_nil (s : GoStr) : splitSlash s ≠ [] := by
  cases s with
  | nil => simp [splitSlash]
  | cons c rest =>
    by_cases hc : c = '/' <;> simp [splitSlash, hc]

theorem splitSlash_append (a b : GoStr) :
    splitSlash (a ++ '/' :: b) = splitSlash a ++ splitSlash b := by
  induction a with
  | nil => simp [splitSlash]
  | cons c a' ih =>
    by_cases hc : c = '/'
    · simp [splitSlash, hc, ih]
    · obtain ⟨s, ss, hs⟩ := List.exists_cons_of_ne_nil (splitSlash_ne_nil a')
    
      simp [splitSlash, hc, ih, hs]

theorem mem_splitSlash_no_slash (s : GoStr) : ∀ p ∈ splitSlash s, '/' ∉ p := by
  induction s with
  | nil =>
    intro p hp
    simp [splitSlash] at hp
    simp [hp]
  | cons c rest ih =>
    intro p hp
    by_cases hc : c = '/'
    · simp [splitSlash, hc] at hp
      rcases hp with h | h
      · simp [h]
      · exact ih p h
    · obtain ⟨s1, ss, hs⟩ := List.exists_cons_of_ne_nil (splitSlash_ne_nil rest)
      simp [splitSlash, hc, hs] at hp
      rcases hp with h | h
      · subst h
        have h1 : '/' ∉ s1 := ih s1 (by simp [hs])
        simp [hc, h1]
        exact fun hcc => hc hcc.symm
      · exact ih p (by simp [hs, h])

theorem splitSlash_single (s : GoStr) (h : '/' ∉ s) : splitSlash s = [s] := by
  induction s with
  | nil => simp [splitSlash]
  | cons c rest ih =>
    have hc : c ≠ '/' := fun hcc => h (by simp [hcc])
    have hr : '/' ∉ rest := fun hm => h (by simp [hm])
    simp [splitSlash, hc, ih hr]

theorem splitSlash_joinSegs (L : List GoStr) (hne : L ≠ [])
    (hns : ∀ p ∈ L, '/' ∉ p) : splitSlash (joinSegs L) = L := by
  induction L with
  | nil => exact absurd rfl hne
  | cons s rest ih =>
    cases rest with
    | nil => simpa [joinSegs] using splitSlash_single s (hns s (by simp))
    | cons t r =>
      have h1 : joinSegs (s :: t :: r) = s ++ '/' :: joinSegs (t :: r) := rfl
      rw [h1, splitSlash_append, splitSlash_single s (hns s (by simp)),
        ih (by simp) (fun p hp => hns p (by simp [hp]))]
      rfl

/-- Stack elements produced by the cleaning machine are never the empty or
the `.` segment. -/
def okSeg (s : GoStr) : Prop := s ≠ [] ∧ s ≠ ['.']

/-- A fully regular segment: non-empty and neither `.` nor `..`. -/
def strongSeg (s : GoStr) : Prop := s ≠ [] ∧ s ≠ ['.'] ∧ s ≠ ['.', '.']

theorem cleanPush_of_strong (r : Bool) (st : List GoStr) (seg : GoStr)
    (h : strongSeg seg) : cleanPush r st seg = seg :: st := by
  obtain ⟨h1, h2, h3⟩ := h
  unfold cleanPush
  rw [if_neg (by simp [h1, h2]), if_neg h3]

theorem runClean_snoc (r : Bool) (st : List GoStr) (A : List GoStr) (x : GoStr) :
    runClean r st (A ++ [x]) = cleanPush r (runClean r st A) x := by
  simp [runClean, List.foldl_append]

theorem cleanPush_okSeg (r : Bool) (st : List GoStr) (seg : GoStr)
    (h : ∀ x ∈ st, okSeg x) : ∀ x ∈ cleanPush r st seg, okSeg x := by
  intro x hx
  unfold cleanPush at hx
  by_cases h1 : seg = [] ∨ seg = ['.']
  · rw [if_pos h1] at hx
    exact h x hx
  · rw [if_neg h1] at hx
    by_cases h2 : seg = ['.', '.']
    · rw [if_pos h2] at hx
      by_cases h0 : st = []
      · rw [if_pos h0] at hx
        cases r with
        | true => simp at hx
        | false =>
          simp at hx
          subst hx
          exact ⟨by simp, by simp⟩
      · rw [if_neg h0] at hx
        by_cases h3 : st.headI = ['.', '.']
        · rw [if_pos h3] at hx
          rcases List.mem_cons.mp hx with h4 | h4
          · subst h4
            rw [h2]
            exact ⟨by simp, by simp⟩
          · exact h x h4
        · rw [if_neg h3] at hx
          exact h x (List.mem_of_mem_tail hx)
    · rw [if_neg h2] at hx
      rcases List.mem_cons.mp hx with h4 | h4
      · subst h4
        push_neg at h1
        exact h1
      · exact h x h4

theorem runClean_okSeg (r : Bool) (segs : List GoStr) :
    ∀ st, (∀ x ∈ st, okSeg x) → ∀ x ∈ runClean r st segs, okSeg x := by
  induction segs with
  | nil => intro st h; exact h
  | cons s rest ih =>
    intro st h
    have h1 : runClean r st (s :: rest) = runClean r (cleanPush r st s) rest := by
      simp [runClean]
    rw [h1]
    exact ih _ (cleanPush_okSeg r st s h)

theorem cleanPush_strong_stack (st : List GoStr) (seg : GoStr)
    (h : ∀ x ∈ st, strongSeg x) : ∀ x ∈ cleanPush true st seg, strongSeg x := by
  intro x hx
  unfold cleanPush at hx
  by_cases h1 : seg = [] ∨ seg = ['.']
  · rw [if_pos h1] at hx
    exact h x hx
  · rw [if_neg h1] at hx
    by_cases h2 : seg = ['.', '.']
    · rw [if_pos h2] at hx
      by_cases h0 : st = []
      · rw [if_pos h0] at hx
        simp at hx
      · rw [if_neg h0] at hx
        have h3 : st.headI ≠ ['.', '.'] := by
          obtain ⟨a, t, hat⟩ := List.exists_cons_of_ne_nil h0
          subst hat
          exact (h a (List.mem_cons_self _ _)).2.2
        rw [if_neg h3] at hx
        exact h x (List.mem_of_mem_tail hx)
    · rw [if_neg h2] at hx
      rcases List.mem_cons.mp hx with h4 | h4
      · subst h4
        push_neg at h1
        exact ⟨h1.1, h1.2, h2⟩
      · exact h x h4

theorem runClean_strong_stack (segs : List GoStr) :
    ∀ st, (∀ x ∈ st, strongSeg x) → ∀ x ∈ runClean true st segs, strongSeg x := by
  induction segs with
  | nil => intro st h; exact h
  | cons s rest ih =>
    intro st h
    have h1 : runClean true st (s :: rest) = runClean true (cleanPush true st s) rest := by
      simp [runClean]
    rw [h1]
    exact ih _ (cleanPush_strong_stack st s h)

theorem cleanSegs_strong (segs : List GoStr) :
    ∀ x ∈ cleanSegs true segs, strongSeg x := by
  intro x hx
  rw [cleanSegs, List.mem_reverse] at hx
  exact runClean_strong_stack segs [] (by simp) x hx

theorem cleanPush_noSlash (r : Bool) (st : List GoStr) (seg : GoStr)
    (hseg : '/' ∉ seg) (h : ∀ x ∈ st, '/' ∉ x) :
    ∀ x ∈ cleanPush r st seg, '/' ∉ x := by
  intro x hx
  unfold cleanPush at hx
  by_cases h1 : seg = [] ∨ seg = ['.']
  · rw [if_pos h1] at hx
    exact h x hx
  · rw [if_neg h1] at hx
    by_cases h2 : seg = ['.', '.']
    · rw [if_pos h2] at hx
      by_cases h0 : st = []
      · rw [if_pos h0] at hx
        cases r with
        | true => simp at hx
        | false =>
          simp at hx
          subst hx
          simp
      · rw [if_neg h0] at hx
        by_cases h3 : st.headI = ['.', '.']
        · rw [if_pos h3] at hx
          rcases List.mem_cons.mp hx with h4 | h4
          · subst h4
            rw [h2]
            simp
          · exact h x h4
        · rw [if_neg h3] at hx
          exact h x (List.mem_of_mem_tail hx)
    · rw [if_neg h2] at hx
      rcases List.mem_cons.mp hx with h4 | h4
      · subst h4
        exact hseg
      · exact h x h4

theorem runClean_noSlash (segs : List GoStr) :
    ∀ (r : Bool) (st : List GoStr), (∀ p ∈ segs, '/' ∉ p) →
      (∀ x ∈ st, '/' ∉ x) → ∀ x ∈ runClean r st segs, '/' ∉ x := by
  induction segs with
  | nil => intro r st _ h; exact h
  | cons s rest ih =>
    intro r st hsegs h
    have h1 : runClean r st (s :: rest) = runClean r (cleanPush r st s) rest := by
      simp [runClean]
    rw [h1]
    exact ih r _ (fun p hp => hsegs p (List.mem_cons_of_mem _ hp))
      (cleanPush_noSlash r st s (hsegs s (List.mem_cons_self _ _)) h)

theorem cleanSegs_noSlash (r : Bool) (segs : List GoStr)
    (hsegs : ∀ p ∈ segs, '/' ∉ p) : ∀ x ∈ cleanSegs r segs, '/' ∉ x := by
  intro x hx
  rw [cleanSegs, List.mem_reverse] at hx
  exact runClean_noSlash segs r [] hsegs (by simp) x hx

theorem runClean_push_all (r : Bool) (L : List GoStr)
    (h : ∀ x ∈ L, strongSeg x) : ∀ st, runClean r st L = L.reverse ++ st := by
  induction L with
  | nil => intro st; rfl
  | cons s rest ih =>
    intro st
    have h1 : runClean r st (s :: rest) = runClean r (cleanPush r st s) rest := by
      simp [runClean]
    rw [h1, cleanPush_of_strong r st s (h s (List.mem_cons_self _ _)),
      ih (fun x hx => h x (List.mem_cons_of_mem _ hx))]
    simp

theorem runClean_normalize (r : Bool) (ys : List GoStr) :
    ∀ st, runClean r st (cleanSegs false ys) = runClean r st ys := by
  induction ys using List.reverseRecOn with
  | nil => intro st; rfl
  | append_singleton ys seg ih =>
    intro st
    have hset : cleanSegs false (ys ++ [seg]) =
        (cleanPush false (runClean false [] ys) seg).reverse := by
      rw [cleanSegs, runClean_snoc]
    have hIH : runClean r st ((runClean false [] ys).reverse) = runClean r st ys := by
      have h := ih st
      rwa [cleanSegs] at h
    rw [hset, runClean_snoc r st ys seg]
    by_cases h1 : seg = [] ∨ seg = ['.']
    · have hpush : cleanPush false (runClean false [] ys) seg = runClean false [] ys := by
        unfold cleanPush
        rw [if_pos h1]
      have hpush2 : cleanPush r (runClean r st ys) seg = runClean r st ys := by
        unfold cleanPush
        rw [if_pos h1]
      rw [hpush, hIH, hpush2]
    · by_cases h2 : seg = ['.', '.']
      · cases hS0 : runClean false [] ys with
        | nil =>
          have hpush : cleanPush false [] seg = [['.', '.']] := by
            rw [h2]
            rfl
          rw [hpush]
          have hrev1 : ([['.', '.']] : List GoStr).reverse = [['.', '.']] := rfl
          rw [hrev1]
          have hIH0 : st = runClean r st ys := by
            have h := hIH
            rw [hS0] at h
            simpa using h
          have hgoal : runClean r st [['.', '.']] = cleanPush r st ['.', '.'] := by
            simp [runClean]
          rw [hgoal, ← hIH0, h2]
        | cons top rest =>
          by_cases h3 : top = ['.', '.']
          · have hpush : cleanPush false (top :: rest) seg =
                seg :: top :: rest := by
              unfold cleanPush
              rw [if_neg h1, if_pos h2, if_neg (List.cons_ne_nil top rest),
                if_pos (by simp [h3])]
            rw [hpush]
            have hrev : (seg :: top :: rest).reverse =
                (top :: rest).reverse ++ [seg] := by
              simp
            rw [hrev, runClean_snoc, ← hS0, hIH]
          · have hpush : cleanPush false (top :: rest) seg = rest := by
              unfold cleanPush
              rw [if_neg h1, if_pos h2, if_neg (List.cons_ne_nil top rest),
                if_neg (by simp [h3])]
              rfl
            rw [hpush]
            have htop : okSeg top := by
              apply runClean_okSeg false ys [] (by simp)
              rw [hS0]
              exact List.mem_cons_self _ _
            have htopS : strongSeg top := ⟨htop.1, htop.2, h3⟩
            have hS0rev : (runClean false [] ys).reverse =
                rest.reverse ++ [top] := by
              rw [hS0]
              simp
            have hexp2 : runClean r st ((runClean false [] ys).reverse) =
                top :: runClean r st rest.reverse := by
              rw [hS0rev, runClean_snoc, cleanPush_of_strong _ _ _ htopS]
            have hfinal : cleanPush r (runClean r st ys) ['.', '.'] =
                runClean r st rest.reverse := by
              rw [← hIH, hexp2]
              unfold cleanPush
              rw [if_neg (by simp), if_pos rfl,
                if_neg (List.cons_ne_nil top (runClean r st rest.reverse))]
              rw [if_neg (by simpa using h3)]
              rfl
            rw [← h2] at hfinal
            rw [hfinal]
      · have hstrong : strongSeg seg := by
          push_neg at h1
          exact ⟨h1.1, h1.2, h2⟩
        have hpush : cleanPush false (runClean false [] ys) seg =
            seg :: runClean false [] ys := cleanPush_of_strong _ _ _ hstrong
        rw [hpush]
        have hrev : (seg :: runClean false [] ys).reverse =
            (runClean false [] ys).reverse ++ [seg] := by
          simp
        rw [hrev, runClean_snoc, hIH]

theorem cleanPush_drop (r : Bool) (st : List GoStr) (seg : GoStr)
    (h : seg = [] ∨ seg = ['.']) : cleanPush r st seg = st := by
  unfold cleanPush
  rw [if_pos h]

theorem startsWithSlash_append (a b : GoStr) (h : startsWithSlash a = true) :
    startsWithSlash (a ++ b) = true := by
  cases a with
  | nil => simp [startsWithSlash] at h
  | cons c rest =>
    simp [startsWithSlash] at h
    simp [startsWithSlash, h]

theorem goClean_rooted (p : GoStr) (h : startsWithSlash p = true) :
    goClean p = '/' :: joinSegs (cleanSegs true (splitSlash p)) := by
  have hne : p ≠ [] := by
    intro h0
    rw [h0] at h
    simp [startsWithSlash] at h
  unfold goClean
  rw [if_neg hne, h]
  rfl

theorem filter_ne_nil_of_all (K : List GoStr) (hK : ∀ x ∈ K, x ≠ []) :
    K.filter (fun s => s ≠ []) = K := by
  refine List.filter_eq_self.mpr ?_
  intro a ha
  simpa using hK a ha

theorem segsOf_render (K : List GoStr) (hK : ∀ x ∈ K, x ≠ []) (hns : ∀ x ∈ K, '/' ∉ x) :
    segsOf ('/' :: joinSegs K) = K := by
  unfold segsOf
  have h1 : splitSlash ('/' :: joinSegs K) = [] :: splitSlash (joinSegs K) := by
    simp [splitSlash]
  rw [h1]
  cases K with
  | nil => rfl
  | cons k ks =>
    rw [splitSlash_joinSegs (k :: ks) (by simp) hns]
    rw [List.filter_cons_of_neg (by simp)]
    exact filter_ne_nil_of_all _ hK

theorem cleanSegs_render (K : List GoStr) (hstrong : ∀ x ∈ K, strongSeg x)
    (hnoslash : ∀ x ∈ K, '/' ∉ x) :
    cleanSegs true (splitSlash ('/' :: joinSegs K)) = K := by
  have h1 : splitSlash ('/' :: joinSegs K) = [] :: splitSlash (joinSegs K) := by
    simp [splitSlash]
  rw [h1]
  cases K with
  | nil => rfl
  | cons k ks =>
    rw [splitSlash_joinSegs (k :: ks) (by simp) hnoslash]
    unfold cleanSegs
    have h2 : runClean true [] ([] :: k :: ks) = runClean true [] (k :: ks) := rfl
    rw [h2, runClean_push_all true (k :: ks) hstrong []]
    simp

theorem goClean_render (K : List GoStr) (hstrong : ∀ x ∈ K, strongSeg x)
    (hnoslash : ∀ x ∈ K, '/' ∉ x) :
    goClean ('/' :: joinSegs K) = '/' :: joinSegs K := by
  rw [goClean_rooted ('/' :: joinSegs K) (by rfl), cleanSegs_render K hstrong hnoslash]

theorem goClean_idem_rooted (p : GoStr) (h : startsWithSlash p = true) :
    goClean (goClean p) = goClean p := by
  rw [goClean_rooted p h]
  exact goClean_render _ (cleanSegs_strong _)
    (cleanSegs_noSlash true _ (mem_splitSlash_no_slash p))

/-- The canonical segment sequence `resolve` computes for a request: the
cleaned concatenation of the root's segments and the (separator-trimmed)
relative path's segments. -/
def resKey (root rel : GoStr) : FsKey :=
  cleanSegs true (splitSlash root ++
    splitSlash (if startsWithSlash rel then rel.drop 1 else rel))

theorem resKey_strong (root rel : GoStr) : ∀ x ∈ resKey root rel, strongSeg x :=
  cleanSegs_strong _

theorem resKey_noSlash (root rel : GoStr) : ∀ x ∈ resKey root rel, '/' ∉ x := by
  apply cleanSegs_noSlash
  intro p hp
  rcases List.mem_append.mp hp with h | h
  · exact mem_splitSlash_no_slash _ p h
  · exact mem_splitSlash_no_slash _ p h

theorem resolve_cases (cwd root rel : GoStr) :
    resolve cwd root rel = .error .pathTraversal ∨
      resolve cwd root rel = .ok (goAbs cwd (goClean (goJoin2 root
        (if startsWithSlash rel then rel.drop 1 else rel)))) := by
  unfold resolve
  simp only []
  split <;> split <;> split
  all_goals first
  | exact Or.inl rfl
  | exact Or.inr rfl

theorem resolve_ok_shape (cwd root rel abs : GoStr)
    (h : startsWithSlash root = true) (hres : resolve cwd root rel = .ok abs) :
    abs = '/' :: joinSegs (resKey root rel) := by
  have hrne : root ≠ [] := by
    intro h0
    rw [h0] at h
    simp [startsWithSlash] at h
  have habs : abs = goAbs cwd (goClean (goJoin2 root
      (if startsWithSlash rel then rel.drop 1 else rel))) := by
    rcases resolve_cases cwd root rel with hc | hc
    · rw [hc] at hres
      cases hres
    · rw [hc] at hres
      exact ((Except.ok.injEq _ _).mp hres).symm
  set rel1 := if startsWithSlash rel then rel.drop 1 else rel with hrel1
  · have hjoin : goJoin2 root rel1 = goClean (root ++ '/' :: rel1) := by
      unfold goJoin2
      rw [if_neg (by simp [hrne]), if_neg hrne]
    have hrootedJ : startsWithSlash (root ++ '/' :: rel1) = true :=
      startsWithSlash_append root _ h
    have hjsw : startsWithSlash (goClean (root ++ '/' :: rel1)) = true := by
      rw [goClean_rooted _ hrootedJ]
      rfl
    have hcl : goClean (goJoin2 root rel1) = goJoin2 root rel1 := by
      rw [hjoin]
      exact goClean_idem_rooted _ hrootedJ
    have habs2 : goAbs cwd (goClean (goJoin2 root rel1)) = goJoin2 root rel1 := by
      rw [hcl]
      unfold goAbs
      rw [hjoin, if_pos hjsw]
      exact goClean_idem_rooted _ hrootedJ
    rw [habs, habs2, hjoin, goClean_rooted _ hrootedJ]
    unfold resKey
    rw [splitSlash_append]

theorem resolve_ok_segsOf (cwd root rel abs : GoStr)
    (h : startsWithSlash root = true) (hres : resolve cwd root rel = .ok abs) :
    segsOf abs = resKey root rel := by
  rw [resolve_ok_shape cwd root rel abs h hres]
  exact segsOf_render _ (fun x hx => (resKey_strong root rel x hx).1)
    (resKey_noSlash root rel)

theorem joinSegs_snoc (A : List GoStr) (x : GoStr) (hA : A ≠ []) :
    joinSegs (A ++ [x]) = joinSegs A ++ '/' :: x := by
  induction A with
  | nil => exact absurd rfl hA
  | cons a A' ih =>
    cases A' with
    | nil => rfl
    | cons b B =>
      have h1 : joinSegs ((a :: b :: B) ++ [x]) =
          a ++ '/' :: joinSegs ((b :: B) ++ [x]) := rfl
      rw [h1, ih (by simp)]
      simp [joinSegs]

theorem noSlash_upToLast (x : GoStr) (h : '/' ∉ x) : upToLastSlash? x = none := by
  induction x with
  | nil => rfl
  | cons c rest ih =>
    have hc : c ≠ '/' := fun hcc => h (by simp [hcc])
    have hr : '/' ∉ rest := fun hm => h (by simp [hm])
    unfold upToLastSlash?
    rw [ih hr]
    simp [hc]

theorem upToLast_append (w x : GoStr) (h : '/' ∉ x) :
    upToLastSlash? (w ++ '/' :: x) = some (w ++ ['/']) := by
  induction w with
  | nil =>
    simp only [List.nil_append]
    unfold upToLastSlash?
    rw [noSlash_upToLast x h]
    rfl
  | cons c w' ih =>
    have h1 : (c :: w') ++ '/' :: x = c :: (w' ++ '/' :: x) := rfl
    rw [h1]
    unfold upToLastSlash?
    rw [ih]
    rfl

theorem goDir_render (K : List GoStr) (hstrong : ∀ x ∈ K, strongSeg x)
    (hnoslash : ∀ x ∈ K, '/' ∉ x) :
    goDir ('/' :: joinSegs K) = '/' :: joinSegs K.dropLast := by
  rcases List.eq_nil_or_concat K with h0 | ⟨A, x, hAx⟩
  · subst h0
    rfl
  · rw [List.concat_eq_append] at hAx
    subst hAx
    have hx : '/' ∉ x := hnoslash x (by simp)
    by_cases hA : A = []
    · subst hA
      have h1 : ('/' : Char) :: joinSegs ([] ++ [x]) = [] ++ '/' :: x := rfl
      unfold goDir
      rw [h1, upToLast_append [] x hx]
      rfl
    · rw [joinSegs_snoc A x hA]
      have h1 : ('/' : Char) :: (joinSegs A ++ '/' :: x) =
          ('/' :: joinSegs A) ++ '/' :: x := rfl
      rw [h1]
      have hdir : goDir (('/' :: joinSegs A) ++ '/' :: x) =
          goClean ('/' :: (joinSegs A ++ '/' :: [])) := by
        unfold goDir
        rw [upToLast_append ('/' :: joinSegs A) x hx]
        rfl
      rw [hdir, goClean_rooted ('/' :: (joinSegs A ++ '/' :: [])) (by rfl)]
      have hAstrong : ∀ y ∈ A, strongSeg y := fun y hy =>
        hstrong y (List.mem_append_left _ hy)
      have hAnoslash : ∀ y ∈ A, '/' ∉ y := fun y hy =>
        hnoslash y (List.mem_append_left _ hy)
      have h3 : splitSlash ('/' :: (joinSegs A ++ '/' :: [])) =
          [] :: (A ++ [[]]) := by
        have h4 : splitSlash ('/' :: (joinSegs A ++ '/' :: [])) =
            [] :: splitSlash (joinSegs A ++ '/' :: []) := by
          simp [splitSlash]
        rw [h4, splitSlash_append, splitSlash_joinSegs A hA hAnoslash]
        rfl
      rw [h3]
      have h5 : cleanSegs true ([] :: (A ++ [[]])) = A := by
        unfold cleanSegs
        have h6 : runClean true [] ([] :: (A ++ [[]])) =
            runClean true [] (A ++ [[]]) := rfl
        rw [h6, runClean_snoc, cleanPush_drop true _ [] (Or.inl rfl),
          runClean_push_all true A hAstrong []]
        simp
      rw [h5, List.dropLast_concat]

theorem segsOf_root_tail (s : GoStr) (hs : s ≠ []) (hns : '/' ∉ s) :
    segsOf ('/' :: s) = [s] := by
  unfold segsOf
  have h1 : splitSlash ('/' :: s) = [] :: splitSlash s := by
    simp [splitSlash]
  rw [h1, splitSlash_single s hns, List.filter_cons_of_neg (by simp),
    List.filter_cons_of_pos (by simpa using hs)]
  rfl

theorem segsOf_concat_tail (A : List GoStr) (x s : GoStr)
    (hK : ∀ y ∈ A ++ [x], strongSeg y) (hns1 : ∀ y ∈ A ++ [x], '/' ∉ y)
    (hs : s ≠ []) (hns : '/' ∉ s) :
    segsOf (('/' :: joinSegs (A ++ [x])) ++ s) = A ++ [x ++ s] := by
  have hx : '/' ∉ x := hns1 x (by simp)
  have hxs : '/' ∉ x ++ s := by
    intro hmem
    rcases List.mem_append.mp hmem with h | h
    · exact hx h
    · exact hns h
  by_cases hA : A = []
  · subst hA
    have h1 : (('/' : Char) :: joinSegs ([] ++ [x])) ++ s = '/' :: (x ++ s) := rfl
    rw [h1, segsOf_root_tail (x ++ s)
      (by simp [(hK x (by simp)).1]) hxs]
    rfl
  · rw [joinSegs_snoc A x hA]
    have h1 : (('/' : Char) :: (joinSegs A ++ '/' :: x)) ++ s =
        '/' :: (joinSegs A ++ '/' :: (x ++ s)) := by
      simp
    rw [h1]
    unfold segsOf
    have h2 : splitSlash ('/' :: (joinSegs A ++ '/' :: (x ++ s))) =
        [] :: (A ++ [x ++ s]) := by
      have h3 : splitSlash ('/' :: (joinSegs A ++ '/' :: (x ++ s))) =
          [] :: splitSlash (joinSegs A ++ '/' :: (x ++ s)) := by
        simp [splitSlash]
      rw [h3, splitSlash_append,
        splitSlash_joinSegs A hA
          (fun y hy => hns1 y (List.mem_append_left _ hy)),
        splitSlash_single (x ++ s) hxs]
    rw [h2, List.filter_cons_of_neg (by simp)]
    apply filter_ne_nil_of_all
    intro y hy
    rcases List.mem_append.mp hy with h | h
    · exact (hK y (List.mem_append_left _ h)).1
    · simp at h
      subst h
      simp [(hK x (by simp)).1]

theorem isPrefixOf_true_iff (a b : List Char) :
    a.isPrefixOf b = true ↔ ∃ t, a ++ t = b := by
  induction a generalizing b with
  | nil =>
    simp [List.isPrefixOf]
  | cons c a' ih =>
    cases b with
    | nil =>
      simp [List.isPrefixOf]
    | cons d b' =>
      have h1 : (c :: a').isPrefixOf (d :: b') = ((c == d) && a'.isPrefixOf b') := rfl
      rw [h1]
      constructor
      · intro h
        have h2 := (Bool.and_eq_true _ _).mp h
        have hcd : c = d := by
          have := h2.1
          simpa using this
        obtain ⟨t, ht⟩ := (ih b').mp h2.2
        exact ⟨t, by rw [← hcd, ← ht]; rfl⟩
      · rintro ⟨t, ht⟩
        have hcd : c = d := by
          have := congrArg (fun l => List.head? l) ht
          simpa using this
        have ht' : a' ++ t = b' := by
          have := congrArg (fun l => List.tail l) ht
          simpa using this
        rw [Bool.and_eq_true]
        exact ⟨by simp [hcd], (ih b').mpr ⟨t, ht'⟩⟩

/-- The `rootWithSep` local of `resolve`: the root, guaranteed to end with
the separator. -/
def rootWithSep (root : GoStr) : GoStr :=
  if endsWithSlash root then root else root ++ ['/']

theorem resolve_guard (cwd root rel : GoStr) :
    resolve cwd root rel =
      (if goAbs cwd (goClean (goJoin2 root
            (if startsWithSlash rel then rel.drop 1 else rel))) ≠ root ∧
          ¬ (rootWithSep root).isPrefixOf (goAbs cwd (goClean (goJoin2 root
            (if startsWithSlash rel then rel.drop 1 else rel)))) = true then
        .error .pathTraversal
      else
        .ok (goAbs cwd (goClean (goJoin2 root
          (if startsWithSlash rel then rel.drop 1 else rel))))) := rfl

/-! ## Concrete fixtures used by witnesses and counterexamples -/

/-- A concrete working directory. -/
def wd0 : GoStr := "/wd".data

/-- A concrete service root. -/
def rt0 : GoStr := "/root".data

/-- A file system holding only the empty root directory. -/
def fsEmpty : FS := [(["root".data], Node.dir)]

/-- C1: `resolve` either fails with `PathTraversal` or returns an absolute
path that equals the root or extends `root + "/"` as a string prefix; on any
input whose cleaned absolute join violates that confinement it returns
`PathTraversal`, and it never touches the file system. -/
theorem resolve_confinement (cwd root rel : GoStr) (fs : FS)
    (hroot : startsWithSlash root = true) :
    (resolve cwd root rel = .error .pathTraversal ∨
      ∃ abs, resolve cwd root rel = .ok abs ∧ startsWithSlash abs = true ∧
        (abs = root ∨ (rootWithSep root).isPrefixOf abs = true)) ∧
    ((goAbs cwd (goClean (goJoin2 root
          (if startsWithSlash rel then rel.drop 1 else rel))) ≠ root ∧
        ¬ (rootWithSep root).isPrefixOf (goAbs cwd (goClean (goJoin2 root
          (if startsWithSlash rel then rel.drop 1 else rel)))) = true) →
      resolve cwd root rel = .error .pathTraversal) ∧
    (resolveOp cwd root fs rel).2 = fs := by
  refine ⟨?_, ?_, rfl⟩
  · by_cases hg : (goAbs cwd (goClean (goJoin2 root
        (if startsWithSlash rel then rel.drop 1 else rel))) ≠ root ∧
        ¬ (rootWithSep root).isPrefixOf (goAbs cwd (goClean (goJoin2 root
          (if startsWithSlash rel then rel.drop 1 else rel)))) = true)
    · left
      rw [resolve_guard, if_pos hg]
    · right
      refine ⟨goAbs cwd (goClean (goJoin2 root
          (if startsWithSlash rel then rel.drop 1 else rel))),
        by rw [resolve_guard, if_neg hg], ?_, ?_⟩
      · have hres : resolve cwd root rel = .ok (goAbs cwd (goClean (goJoin2 root
            (if startsWithSlash rel then rel.drop 1 else rel)))) := by
          rw [resolve_guard, if_neg hg]
        rw [resolve_ok_shape cwd root rel _ hroot hres]
        rfl
      · by_cases he : goAbs cwd (goClean (goJoin2 root
            (if startsWithSlash rel then rel.drop 1 else rel))) = root
        · exact Or.inl he
        · right
          by_contra hp
          exact hg ⟨he, hp⟩
  · intro hg
    rw [resolve_guard, if_pos hg]

/-- C1 witness: a `..`-laden input under the concrete root is rejected with
`PathTraversal`, and a plain input resolves inside the root. -/
theorem resolve_confinement_witness :
    startsWithSlash rt0 = true ∧
    (resolve wd0 rt0 "../x".data = .error .pathTraversal ∨
      ∃ abs, resolve wd0 rt0 "../x".data = .ok abs ∧ startsWithSlash abs = true ∧
        (abs = rt0 ∨ (rootWithSep rt0).isPrefixOf abs = true)) := by
  refine ⟨by decide, ?_⟩
  exact (resolve_confinement wd0 rt0 "../x".data [] (by decide)).1

/-- C8: `resolve` is deterministic, independent of the file-system state, and
free of side effects: as a stateful operation it returns the state unchanged,
its value does not depend on the state, and composing two invocations yields
the same value. -/
theorem resolve_pure_idempotent (cwd root rel : GoStr) (fs fs' : FS) :
    (resolveOp cwd root fs rel).2 = fs ∧
    (resolveOp cwd root fs rel).1 = (resolveOp cwd root fs' rel).1 ∧
    (resolveOp cwd root ((resolveOp cwd root fs rel).2) rel).1 =
      (resolveOp cwd root fs rel).1 :=
  ⟨rfl, rfl, rfl⟩

/-- C2 (code bug): the handler's error mapper recognizes only raw
`os.IsNotExist` / `os.IsPermission` errors, so the service's `errors.New`
sentinels — NotFound, AlreadyExists, PathTraversal, DirNotEmpty — all fall
through to 500 instead of the prescribed 404/409/400/400; the revision
variant's extra `"not found"` substring check repairs only NotFound. -/
theorem mapError_sentinels_unclassified :
    (mapLocalFileServiceError .notFound).1 = 500 ∧
    (mapLocalFileServiceError .alreadyExists).1 = 500 ∧
    (mapLocalFileServiceError .pathTraversal).1 = 500 ∧
    (mapLocalFileServiceError .dirNotEmpty).1 = 500 ∧
    (mapLocalFileServiceError (.osErr .enoent)).1 = 404 ∧
    (mapLocalFileServiceError (.osErr .eperm)).1 = 403 ∧
    (mapLocalFileServiceErrorRev .notFound).1 = 404 ∧
    (mapLocalFileServiceErrorRev .alreadyExists).1 = 500 ∧
    (mapLocalFileServiceErrorRev .pathTraversal).1 = 500 := by
  decide

/-- C4 counterexample: on the primary handler, `PUT /fs/a/b.txt` with body
`"hello"` and no existing parent `a/` does not return 200 — the initial
`Stat` fails with the NotFound sentinel, which the mapper turns into 500,
and nothing is written. -/
theorem put_scenario_not_200 :
    (handlerPut wd0 rt0 fsEmpty "a/b.txt".data [] "hello".data).1.1 ≠ 200 := by
  decide

/-- C4 amended: against the primary handler the scenario fails closed: the
`PUT` returns 500 carrying the NotFound sentinel's message and leaves the
file system unchanged (in particular `a/` is not auto-created), and the
subsequent `GET` of the still-missing file also returns 500. -/
theorem put_get_scenario_amended :
    handlerPut wd0 rt0 fsEmpty "a/b.txt".data [] "hello".data =
      ((500, .errMsg "path not found".data), fsEmpty) ∧
    handlerGet wd0 rt0 fsEmpty "a/b.txt".data false =
      (500, .errMsg "path not found".data) := by
  decide

/-- C5: deleting a non-empty directory without `recursive=true` fails with
`DirNotEmpty` and leaves the file system — the directory and all its
contents — untouched; the handler maps this failure to a 400 response with
the retry-with-recursive guidance message. -/
theorem delete_nonempty_dir (cwd root rel abs : GoStr) (fs : FS)
    (hres : resolve cwd root rel = .ok abs)
    (hdir : statFS fs (segsOf abs) = some .dir)
    (hchild : childNames fs (segsOf abs) ≠ []) :
    svcDelete cwd root fs rel = (.error .dirNotEmpty, fs) ∧
    handlerDelete cwd root fs rel false =
      ((400, .errMsg "directory not empty (use recursive=true)".data), fs) := by
  have h1 : svcDelete cwd root fs rel = (.error .dirNotEmpty, fs) := by
    unfold svcDelete
    rw [hres]
    simp only [osStat, hdir]
    rw [if_pos hchild]
  refine ⟨h1, ?_⟩
  unfold handlerDelete
  simp only [Bool.false_eq_true, if_false, h1]
  rw [if_pos (by decide)]

/-- C5 witness: a directory `d` with one file inside, under the concrete
root. -/
theorem delete_nonempty_dir_witness :
    resolve wd0 rt0 "d".data = .ok "/root/d".data ∧
    handlerDelete wd0 rt0
        [(["root".data], Node.dir), (["root".data, "d".data], Node.dir),
          (["root".data, "d".data, "f".data], Node.file [1])]
        "d".data false =
      ((400, .errMsg "directory not empty (use recursive=true)".data),
        [(["root".data], Node.dir), (["root".data, "d".data], Node.dir),
          (["root".data, "d".data, "f".data], Node.file [1])]) := by
  refine ⟨by decide, ?_⟩
  exact (delete_nonempty_dir wd0 rt0 "d".data "/root/d".data
    [(["root".data], Node.dir), (["root".data, "d".data], Node.dir),
      (["root".data, "d".data, "f".data], Node.file [1])]
    (by decide) (by decide) (by decide)).2

/-- C6: `Rename` with `overwrite=false` onto a (non-blank) destination that
already exists fails with `AlreadyExists` and performs no rename: the file
system — source and destination included — is returned unchanged.  (A blank
destination is rejected earlier with `MissingNewName`, per the operation's
contract.) -/
theorem rename_existing_dest (cwd root relPath newPath absSrc absDst : GoStr)
    (fs : FS) (n m : Node)
    (hblank : goTrimSpace newPath ≠ [])
    (hsrcres : resolve cwd root relPath = .ok absSrc)
    (hsrc : statFS fs (segsOf absSrc) = some n)
    (hdstres : resolve cwd root newPath = .ok absDst)
    (hdst : statFS fs (segsOf absDst) = some m) :
    svcRename cwd root fs relPath newPath false = (.error .alreadyExists, fs) := by
  unfold svcRename
  rw [if_neg hblank, hsrcres]
  simp only [osStat, hsrc, hdstres]
  rw [if_pos ⟨trivial, by rw [hdst]; rfl⟩]

/-- C6 witness: renaming file `a` onto existing file `b` with
`overwrite=false`. -/
theorem rename_existing_dest_witness :
    goTrimSpace "b".data ≠ [] ∧
    svcRename wd0 rt0
        [(["root".data], Node.dir), (["root".data, "a".data], Node.file [1]),
          (["root".data, "b".data], Node.file [2])]
        "a".data "b".data false =
      (.error .alreadyExists,
        [(["root".data], Node.dir), (["root".data, "a".data], Node.file [1]),
          (["root".data, "b".data], Node.file [2])]) := by
  refine ⟨by decide, ?_⟩
  exact rename_existing_dest wd0 rt0 "a".data "b".data
    "/root/a".data "/root/b".data _ (Node.file [1]) (Node.file [2])
    (by decide) (by decide) (by decide) (by decide) (by decide)

theorem osMkdirAll_lookup_len (fs fs1 : FS) (k q : FsKey)
    (hmk : osMkdirAll fs k = .ok fs1) (hq : q = [] ∨ k.length < q.length) :
    lookupFS fs1 q = lookupFS fs q := by
  apply osMkdirAll_lookup fs k fs1 hmk
  rcases hq with h | h
  · exact Or.inl h
  · right
    intro hmem
    have hpre := (List.mem_inits _ _).mp hmem
    have hle := hpre.length_le
    omega

theorem statFS_osMkdirAll_len (fs fs1 : FS) (k q : FsKey)
    (hmk : osMkdirAll fs k = .ok fs1) (hq : q = [] ∨ k.length < q.length) :
    statFS fs1 q = statFS fs q := by
  by_cases hq0 : q = []
  · simp [statFS, hq0]
  · simp only [statFS, if_neg hq0]
    exact osMkdirAll_lookup_len fs fs1 k q hmk hq

theorem osCreate_ok_eq (fs : FS) (k : FsKey) (fs' : FS)
    (h : osCreate fs k = .ok fs') : fs' = insertFS fs k (.file []) := by
  unfold osCreate at h
  split at h
  · cases h
  · split at h
    · exact ((Except.ok.injEq _ _).mp h).symm
    · cases h
    · cases h

theorem osRemoveQuiet_of_file (fs : FS) (k : FsKey) (d : List Nat)
    (hk : k ≠ []) (h : lookupFS fs k = some (.file d)) :
    osRemoveQuiet fs k = eraseFS fs k := by
  have hstat : statFS fs k = some (.file d) := by
    simp [statFS, hk, h]
  unfold osRemoveQuiet osRemove
  rw [hstat]

/-- Shape facts about a resolved absolute path: its `Dir` drops the last
segment, and the sibling `<name>.part` path has the same parent, a distinct
(non-empty) key, and is strictly longer than every ancestor the parent's
`MkdirAll` can touch. -/
theorem resolve_key_shapes (cwd root rel abs : GoStr)
    (hroot : startsWithSlash root = true)
    (hres : resolve cwd root rel = .ok abs) :
    segsOf (goDir abs) = (segsOf abs).dropLast ∧
    (segsOf abs = [] ∨ (segsOf abs).dropLast.length < (segsOf abs).length) ∧
    (segsOf (abs ++ ".part".data) = [] ∨
      (segsOf abs).dropLast.length < (segsOf (abs ++ ".part".data)).length) ∧
    segsOf (abs ++ ".part".data) ≠ segsOf abs ∧
    segsOf (abs ++ ".part".data) ≠ [] := by
  have habs : abs = '/' :: joinSegs (resKey root rel) :=
    resolve_ok_shape cwd root rel abs hroot hres
  have hstrong : ∀ x ∈ resKey root rel, strongSeg x := resKey_strong root rel
  have hnos : ∀ x ∈ resKey root rel, '/' ∉ x := resKey_noSlash root rel
  have hsegs : segsOf abs = resKey root rel :=
    resolve_ok_segsOf cwd root rel abs hroot hres
  have hpart_ne : (".part".data : GoStr) ≠ [] := by decide
  have hpart_ns : '/' ∉ (".part".data : GoStr) := by decide
  have hdirK : segsOf (goDir abs) = (segsOf abs).dropLast := by
    rw [habs, goDir_render (resKey root rel) hstrong hnos,
      segsOf_render (resKey root rel) (fun x hx => (hstrong x hx).1) hnos]
    apply segsOf_render
    · intro x hx
      exact (hstrong x (List.dropLast_subset _ hx)).1
    · intro x hx
      exact hnos x (List.dropLast_subset _ hx)
  refine ⟨hdirK, ?_, ?_, ?_, ?_⟩
  · by_cases h0 : segsOf abs = []
    · exact Or.inl h0
    · right
      rw [List.length_dropLast]
      have : segsOf abs ≠ [] := h0
      have hlen : 0 < (segsOf abs).length := List.length_pos.mpr h0
      omega
  · rcases List.eq_nil_or_concat (resKey root rel) with h0 | ⟨A, x, hAx⟩
    · right
      rw [hsegs, h0]
      have htmp : segsOf (abs ++ ".part".data) = [".part".data] := by
        rw [habs, h0]
        exact segsOf_root_tail _ hpart_ne hpart_ns
      rw [htmp]
      simp
    · rw [List.concat_eq_append] at hAx
      right
      have htmp : segsOf (abs ++ ".part".data) = A ++ [x ++ ".part".data] := by
        rw [habs, hAx]
        exact segsOf_concat_tail A x _ (hAx ▸ hstrong) (hAx ▸ hnos) hpart_ne hpart_ns
      rw [htmp, hsegs, hAx]
      simp [List.dropLast_concat]
  · rcases List.eq_nil_or_concat (resKey root rel) with h0 | ⟨A, x, hAx⟩
    · have htmp : segsOf (abs ++ ".part".data) = [".part".data] := by
        rw [habs, h0]
        exact segsOf_root_tail _ hpart_ne hpart_ns
      rw [htmp, hsegs, h0]
      simp
    · rw [List.concat_eq_append] at hAx
      have htmp : segsOf (abs ++ ".part".data) = A ++ [x ++ ".part".data] := by
        rw [habs, hAx]
        exact segsOf_concat_tail A x _ (hAx ▸ hstrong) (hAx ▸ hnos) hpart_ne hpart_ns
      rw [htmp, hsegs, hAx]
      intro h
      have hx2 : x ++ ".part".data = x := by
        simpa using h
      have hlen := congrArg List.length hx2
      simp [List.length_append] at hlen
  · rcases List.eq_nil_or_concat (resKey root rel) with h0 | ⟨A, x, hAx⟩
    · have htmp : segsOf (abs ++ ".part".data) = [".part".data] := by
        rw [habs, h0]
        exact segsOf_root_tail _ hpart_ne hpart_ns
      rw [htmp]
      simp
    · rw [List.concat_eq_append] at hAx
      have htmp : segsOf (abs ++ ".part".data) = A ++ [x ++ ".part".data] := by
        rw [habs, hAx]
        exact segsOf_concat_tail A x _ (hAx ▸ hstrong) (hAx ▸ hnos) hpart_ne hpart_ns
      rw [htmp]
      simp

/-- C9: `WriteFile` runs `MkdirAll` on the parent before the
`create=false` existence check, so on an absent target it returns `NotFound`
while the previously missing parent directory has nevertheless been created:
the fs is not left unchanged on this error path. -/
theorem writeFile_notfound_creates_parents (cwd root rel abs : GoStr)
    (fs fs1 : FS) (data : List Nat)
    (hres : resolve cwd root rel = .ok abs)
    (hmk : osMkdirAll fs (segsOf (goDir abs)) = .ok fs1)
    (habsent : statFS fs1 (segsOf abs) = none)
    (hparent : statFS fs (segsOf (goDir abs)) = none) :
    svcWriteFile cwd root fs rel data false = (.error .notFound, fs1) ∧
    statFS fs1 (segsOf (goDir abs)) = some .dir ∧
    fs1 ≠ fs := by
  have hmain : svcWriteFile cwd root fs rel data false = (.error .notFound, fs1) := by
    unfold svcWriteFile
    rw [hres]
    simp only [hmk]
    rw [if_pos ⟨trivial, habsent⟩]
  have hcreated := osMkdirAll_creates _ _ _ hmk
  refine ⟨hmain, hcreated, ?_⟩
  intro he
  rw [he, hparent] at hcreated
  cases hcreated

/-- C9 witness: writing `p/q/r.txt` with `create=false` under the empty
root returns `NotFound` yet creates `p/` and `p/q/`. -/
theorem writeFile_notfound_creates_parents_witness :
    svcWriteFile wd0 rt0 fsEmpty "p/q/r.txt".data [7] false =
      (.error .notFound,
        [(["root".data, "p".data, "q".data], Node.dir),
          (["root".data, "p".data], Node.dir), (["root".data], Node.dir)]) ∧
    statFS [(["root".data, "p".data, "q".data], Node.dir),
        (["root".data, "p".data], Node.dir), (["root".data], Node.dir)]
      (segsOf (goDir "/root/p/q/r.txt".data)) = some .dir := by
  have h := writeFile_notfound_creates_parents wd0 rt0 "p/q/r.txt".data
    "/root/p/q/r.txt".data fsEmpty
    [(["root".data, "p".data, "q".data], Node.dir),
      (["root".data, "p".data], Node.dir), (["root".data], Node.dir)]
    [7] (by decide) (by decide) (by decide) (by decide)
  exact ⟨h.1, h.2.1⟩

/-- C7: `SaveStream` with `overwrite=false` and an existing destination
fails with `AlreadyExists` before the temporary `<name>.part` file is
created: on this error neither the destination's binding nor the temporary
path's binding differs from the initial state (only parent directories may
have been ensured by the preceding `MkdirAll`). -/
theorem saveStream_existing_dest (cwd root rel abs : GoStr) (fs fs1 : FS)
    (r : StreamSrc) (n : Node)
    (hroot : startsWithSlash root = true)
    (hres : resolve cwd root rel = .ok abs)
    (hmk : osMkdirAll fs (segsOf (goDir abs)) = .ok fs1)
    (hex : statFS fs (segsOf abs) = some n) :
    svcSaveStream cwd root fs rel r false = (.error .alreadyExists, fs1) ∧
    lookupFS fs1 (segsOf abs) = lookupFS fs (segsOf abs) ∧
    lookupFS fs1 (segsOf (abs ++ ".part".data)) =
      lookupFS fs (segsOf (abs ++ ".part".data)) := by
  obtain ⟨hdirK, habslen, htmplen, _, _⟩ :=
    resolve_key_shapes cwd root rel abs hroot hres
  have habs_unch : statFS fs1 (segsOf abs) = statFS fs (segsOf abs) := by
    apply statFS_osMkdirAll_len fs fs1 _ _ hmk
    rw [hdirK]
    exact habslen
  have hmain : svcSaveStream cwd root fs rel r false = (.error .alreadyExists, fs1) := by
    unfold svcSaveStream
    rw [hres]
    simp only [hmk]
    rw [if_pos ⟨trivial, by rw [habs_unch, hex]; rfl⟩]
  refine ⟨hmain, ?_, ?_⟩
  · apply osMkdirAll_lookup_len fs fs1 _ _ hmk
    rw [hdirK]
    exact habslen
  · apply osMkdirAll_lookup_len fs fs1 _ _ hmk
    rw [hdirK]
    exact htmplen

/-- C7 witness: streaming onto the existing file `a` with `overwrite=false`. -/
theorem saveStream_existing_dest_witness :
    svcSaveStream wd0 rt0
        [(["root".data], Node.dir), (["root".data, "a".data], Node.file [1])]
        "a".data ⟨[9, 9], none, none⟩ false =
      (.error .alreadyExists,
        [(["root".data], Node.dir), (["root".data, "a".data], Node.file [1])]) ∧
    lookupFS [(["root".data], Node.dir), (["root".data, "a".data], Node.file [1])]
        (segsOf ("/root/a".data ++ ".part".data)) =
      lookupFS [(["root".data], Node.dir), (["root".data, "a".data], Node.file [1])]
        (segsOf ("/root/a".data ++ ".part".data)) := by
  have h := saveStream_existing_dest wd0 rt0 "a".data "/root/a".data
    [(["root".data], Node.dir), (["root".data, "a".data], Node.file [1])]
    [(["root".data], Node.dir), (["root".data, "a".data], Node.file [1])]
    ⟨[9, 9], none, none⟩ (Node.file [1])
    (by decide) (by decide) (by decide) (by decide)
  exact ⟨h.1, rfl⟩

/-- C3: when the copy into the temporary `<name>.part` file or its close
fails, `SaveStream` removes the temporary file and returns that error, and
the destination's binding is exactly what it was before the call — the
destination can only ever be replaced by the final rename, which runs only
after both copy and close succeed. -/
theorem saveStream_failure_cleanup (cwd root rel abs : GoStr)
    (fs fs1 fs2 : FS) (r : StreamSrc) (overwrite : Bool)
    (hroot : startsWithSlash root = true)
    (hres : resolve cwd root rel = .ok abs)
    (hmk : osMkdirAll fs (segsOf (goDir abs)) = .ok fs1)
    (hchk : overwrite = true ∨ statFS fs1 (segsOf abs) = none)
    (hcr : osCreate fs1 (segsOf (abs ++ ".part".data)) = .ok fs2)
    (hfail : r.copyFail ≠ none ∨ (r.copyFail = none ∧ r.closeFail ≠ none)) :
    (∃ c, (r.copyFail = some c ∨ r.closeFail = some c) ∧
      svcSaveStream cwd root fs rel r overwrite = (.error (.osErr c),
        eraseFS (osWriteFull fs2 (segsOf (abs ++ ".part".data)) r.chunks)
          (segsOf (abs ++ ".part".data)))) ∧
    lookupFS (svcSaveStream cwd root fs rel r overwrite).2
      (segsOf (abs ++ ".part".data)) = none ∧
    lookupFS (svcSaveStream cwd root fs rel r overwrite).2 (segsOf abs) =
      lookupFS fs (segsOf abs) := by
  obtain ⟨hdirK, habslen, htmplen, htmpne, htmpnil⟩ :=
    resolve_key_shapes cwd root rel abs hroot hres
  have hcond : ¬ (overwrite = false ∧
      (statFS fs1 (segsOf abs)).isSome = true) := by
    rcases hchk with h | h
    · rintro ⟨h1, _⟩
      rw [h] at h1
      cases h1
    · rintro ⟨_, h2⟩
      rw [h] at h2
      cases h2
  have hfs2 := osCreate_ok_eq _ _ _ hcr
  have hlook3 : lookupFS (osWriteFull fs2 (segsOf (abs ++ ".part".data)) r.chunks)
      (segsOf (abs ++ ".part".data)) = some (.file r.chunks) := by
    unfold osWriteFull
    rw [lookupFS_insertFS, if_pos rfl]
  have hremove : osRemoveQuiet
      (osWriteFull fs2 (segsOf (abs ++ ".part".data)) r.chunks)
      (segsOf (abs ++ ".part".data)) =
      eraseFS (osWriteFull fs2 (segsOf (abs ++ ".part".data)) r.chunks)
        (segsOf (abs ++ ".part".data)) :=
    osRemoveQuiet_of_file _ _ _ htmpnil hlook3
  have hstep : svcSaveStream cwd root fs rel r overwrite =
      (match r.copyFail with
        | some c => (.error (.osErr c),
            osRemoveQuiet (osWriteFull fs2 (segsOf (abs ++ ".part".data)) r.chunks)
              (segsOf (abs ++ ".part".data)))
        | none =>
          match r.closeFail with
          | some c => (.error (.osErr c),
              osRemoveQuiet (osWriteFull fs2 (segsOf (abs ++ ".part".data)) r.chunks)
                (segsOf (abs ++ ".part".data)))
          | none =>
            match osRename (osWriteFull fs2 (segsOf (abs ++ ".part".data)) r.chunks)
                (segsOf (abs ++ ".part".data)) (segsOf abs) with
            | .error c => (.error (.osErr c),
                osWriteFull fs2 (segsOf (abs ++ ".part".data)) r.chunks)
            | .ok fs4 => (.ok (), fs4)) := by
    unfold svcSaveStream
    rw [hres]
    simp only [hmk]
    rw [if_neg hcond]
    simp only [hcr]
  obtain ⟨c, hcase⟩ :
      ∃ c, r.copyFail = some c ∨ (r.copyFail = none ∧ r.closeFail = some c) := by
    rcases hfail with h | ⟨h1, h2⟩
    · obtain ⟨c, hc⟩ := Option.ne_none_iff_exists'.mp h
      exact ⟨c, Or.inl hc⟩
    · obtain ⟨c, hc⟩ := Option.ne_none_iff_exists'.mp h2
      exact ⟨c, Or.inr ⟨h1, hc⟩⟩
  have hout : svcSaveStream cwd root fs rel r overwrite = (.error (.osErr c),
      eraseFS (osWriteFull fs2 (segsOf (abs ++ ".part".data)) r.chunks)
        (segsOf (abs ++ ".part".data))) := by
    rcases hcase with hc | ⟨h1, hc⟩
    · rw [hstep]
      simp only [hc, hremove]
    · rw [hstep]
      simp only [h1, hc, hremove]
  refine ⟨⟨c, ?_, hout⟩, ?_, ?_⟩
  · rcases hcase with hc | ⟨_, hc⟩
    · exact Or.inl hc
    · exact Or.inr hc
  · rw [hout, lookupFS_eraseFS, if_pos rfl]
  · rw [hout]
    have hne : segsOf abs ≠ segsOf (abs ++ ".part".data) :=
      fun h => htmpne h.symm
    rw [lookupFS_eraseFS, if_neg hne]
    unfold osWriteFull
    rw [lookupFS_insertFS, if_neg hne, hfs2, lookupFS_insertFS, if_neg hne]
    apply osMkdirAll_lookup_len fs fs1 _ _ hmk
    rw [hdirK]
    exact habslen

/-- C3 witness: a copy failure while overwriting the existing file `a`:
the error is surfaced, `/root/a.part` is gone, and `/root/a` keeps its
previous content. -/
theorem saveStream_failure_cleanup_witness :
    svcSaveStream wd0 rt0
        [(["root".data], Node.dir), (["root".data, "a".data], Node.file [1])]
        "a".data ⟨[9], some .other, none⟩ true =
      (.error (.osErr .other),
        [(["root".data], Node.dir), (["root".data, "a".data], Node.file [1])]) ∧
    lookupFS (svcSaveStream wd0 rt0
        [(["root".data], Node.dir), (["root".data, "a".data], Node.file [1])]
        "a".data ⟨[9], some .other, none⟩ true).2
      (segsOf ("/root/a".data ++ ".part".data)) = none := by
  have h := saveStream_failure_cleanup wd0 rt0 "a".data "/root/a".data
    [(["root".data], Node.dir), (["root".data, "a".data], Node.file [1])]
    [(["root".data], Node.dir), (["root".data, "a".data], Node.file [1])]
    [(["root".data, "a.part".data], Node.file []),
      (["root".data], Node.dir), (["root".data, "a".data], Node.file [1])]
    ⟨[9], some .other, none⟩ true
    (by decide) (by decide) (by decide) (Or.inl rfl) (by decide) (Or.inl (by decide))
  refine ⟨?_, h.2.1⟩
  obtain ⟨c, hcor, hceq⟩ := h.1
  have hc : c = OsCode.other := by
    rcases hcor with hc | hc
    · exact (by simpa using hc : OsCode.other = c).symm
    · simp at hc
  rw [hc] at hceq
  rw [hceq]
  decide

theorem cleanSegs_okSeg (r : Bool) (segs : List GoStr) :
    ∀ x ∈ cleanSegs r segs, okSeg x := by
  intro x hx
  rw [cleanSegs, List.mem_reverse] at hx
  exact runClean_okSeg r segs [] (by simp) x hx

theorem runClean_append (r : Bool) (st : List GoStr) (xs ys : List GoStr) :
    runClean r st (xs ++ ys) = runClean r (runClean r st xs) ys := by
  simp [runClean, List.foldl_append]

theorem cleanSegs_snoc_strong (r : Bool) (L : List GoStr) (name : GoStr)
    (h : strongSeg name) : cleanSegs r (L ++ [name]) = cleanSegs r L ++ [name] := by
  unfold cleanSegs
  rw [runClean_snoc, cleanPush_of_strong _ _ _ h]
  simp

theorem cleanSegs_snoc_drop (r : Bool) (L : List GoStr) (seg : GoStr)
    (h : seg = [] ∨ seg = ['.']) : cleanSegs r (L ++ [seg]) = cleanSegs r L := by
  unfold cleanSegs
  rw [runClean_snoc, cleanPush_drop _ _ _ h]

theorem startsWithSlash_append_left (a b : GoStr) (ha : a ≠ []) :
    startsWithSlash (a ++ b) = startsWithSlash a := by
  cases a with
  | nil => exact absurd rfl ha
  | cons c t => rfl

theorem startsWithSlash_cons_false (c : Char) (t : GoStr) (hc : c ≠ '/') :
    startsWithSlash (c :: t) = false := by
  unfold startsWithSlash
  simp [hc]

theorem startsWithSlash_false_of_noSlash (s : GoStr) (h : '/' ∉ s) :
    startsWithSlash s = false := by
  cases s with
  | nil => rfl
  | cons c t =>
    exact startsWithSlash_cons_false c t (fun hcc => h (by simp [hcc]))

theorem joinSegs_not_rooted (L : List GoStr) (hL : L ≠ [])
    (h1 : ∀ x ∈ L, x ≠ []) (h2 : ∀ x ∈ L, '/' ∉ x) :
    startsWithSlash (joinSegs L) = false := by
  obtain ⟨s, t, hst⟩ := List.exists_cons_of_ne_nil hL
  subst hst
  obtain ⟨c, s', hcs⟩ := List.exists_cons_of_ne_nil (h1 s (by simp))
  subst hcs
  have hc : c ≠ '/' := by
    intro hcc
    refine h2 (c :: s') (by simp) ?_
    rw [← hcc]
    exact List.mem_cons_self _ _
  cases t with
  | nil => exact startsWithSlash_cons_false c s' hc
  | cons u v =>
    have h3 : joinSegs ((c :: s') :: u :: v) =
        (c :: s') ++ '/' :: joinSegs (u :: v) := rfl
    rw [h3]
    exact startsWithSlash_cons_false c _ hc

theorem dropWhile_head_false (p : Char → Bool) (l : List Char) (a : Char)
    (t : List Char) (h : l.dropWhile p = a :: t) : p a = false := by
  induction l with
  | nil => cases h
  | cons c r ih =>
    rw [List.dropWhile_cons] at h
    by_cases hc : p c = true
    · rw [if_pos hc] at h
      exact ih h
    · rw [if_neg hc] at h
      injection h with h1 _
      rw [← h1]
      simpa using hc

theorem lastSeg_no_slash (q : GoStr) : '/' ∉ lastSeg q := by
  unfold lastSeg
  intro hmem
  rw [List.mem_reverse] at hmem
  have h := List.mem_takeWhile_imp hmem
  simp at h

theorem goBase_regular (p : GoStr) (h : goBase p ≠ ['/']) :
    goBase p ≠ [] ∧ '/' ∉ goBase p := by
  by_cases h0 : p = []
  · subst h0
    exact ⟨by decide, by decide⟩
  · by_cases h1 : dropTrailingSlashes p = []
    · exfalso
      apply h
      unfold goBase
      rw [if_neg h0]
      simp only [h1]
      rfl
    · have hgb : goBase p = lastSeg (dropTrailingSlashes p) := by
        unfold goBase
        rw [if_neg h0]
        simp only [h1]
        rfl
      rw [hgb]
      refine ⟨?_, lastSeg_no_slash _⟩
      obtain ⟨a, t, hat⟩ : ∃ a t, (dropTrailingSlashes p).reverse = a :: t := by
        have hne : (dropTrailingSlashes p).reverse ≠ [] := by
          simpa using h1
        obtain ⟨a, t, h2⟩ := List.exists_cons_of_ne_nil hne
        exact ⟨a, t, h2⟩
      have hrev : (dropTrailingSlashes p).reverse =
          List.dropWhile (fun c => c = '/') p.reverse := by
        unfold dropTrailingSlashes
        rw [List.reverse_reverse]
      have ha : (fun c : Char => decide (c = '/')) a = false := by
        apply dropWhile_head_false _ p.reverse a t
        rw [← hrev]
        exact hat
      have ha' : a ≠ '/' := by simpa using ha
      unfold lastSeg
      rw [hat, List.takeWhile_cons_of_pos (by simpa using ha')]
      simp

theorem endsWithSlash_append (u x : GoStr) (hx : x ≠ []) :
    endsWithSlash (u ++ x) = endsWithSlash x := by
  unfold endsWithSlash
  rw [List.getLast?_append_of_ne_nil u hx]

theorem endsWithSlash_false_of_noSlash (x : GoStr) (hns : '/' ∉ x) :
    endsWithSlash x = false := by
  unfold endsWithSlash
  cases hlast : x.getLast? with
  | none => rfl
  | some a =>
    have ha : a ∈ x := List.mem_of_mem_getLast? hlast
    have ha' : a ≠ '/' := fun h => hns (h ▸ ha)
    simp [ha']

theorem endsWithSlash_render_false (T : List GoStr) (hTne : T ≠ [])
    (h1 : ∀ x ∈ T, x ≠ []) (h2 : ∀ x ∈ T, '/' ∉ x) :
    endsWithSlash ('/' :: joinSegs T) = false := by
  rcases List.eq_nil_or_concat T with h0 | ⟨A, x, hAx⟩
  · exact absurd h0 hTne
  · rw [List.concat_eq_append] at hAx
    subst hAx
    have hxne : x ≠ [] := h1 x (by simp)
    have hxns : '/' ∉ x := h2 x (by simp)
    by_cases hA : A = []
    · subst hA
      have hform : ('/' : Char) :: joinSegs ([] ++ [x]) = ['/'] ++ x := rfl
      rw [hform, endsWithSlash_append _ _ hxne]
      exact endsWithSlash_false_of_noSlash x hxns
    · rw [joinSegs_snoc A x hA]
      have hform : ('/' : Char) :: (joinSegs A ++ '/' :: x) =
          (('/' :: joinSegs A) ++ ['/']) ++ x := by
        simp
      rw [hform, endsWithSlash_append _ _ hxne]
      exact endsWithSlash_false_of_noSlash x hxns

theorem if_bool_false {α : Sort _} (b : Bool) (hb : b = false) (x y : α) :
    (if b = true then x else y) = y := by
  rw [hb]
  simp

theorem resolve_raw_render (cwd root rel : GoStr)
    (hroot : startsWithSlash root = true) :
    goAbs cwd (goClean (goJoin2 root
      (if startsWithSlash rel then rel.drop 1 else rel))) =
    '/' :: joinSegs (resKey root rel) := by
  have hrne : root ≠ [] := by
    intro h0
    rw [h0] at hroot
    simp [startsWithSlash] at hroot
  set rel1 := if startsWithSlash rel then rel.drop 1 else rel with hrel1
  have hjoin : goJoin2 root rel1 = goClean (root ++ '/' :: rel1) := by
    unfold goJoin2
    rw [if_neg (by simp [hrne]), if_neg hrne]
  have hrootedJ : startsWithSlash (root ++ '/' :: rel1) = true :=
    startsWithSlash_append root _ hroot
  have hjsw : startsWithSlash (goClean (root ++ '/' :: rel1)) = true := by
    rw [goClean_rooted _ hrootedJ]
    rfl
  have hcl : goClean (goJoin2 root rel1) = goJoin2 root rel1 := by
    rw [hjoin]
    exact goClean_idem_rooted _ hrootedJ
  rw [hcl]
  unfold goAbs
  rw [hjoin, if_pos hjsw, goClean_idem_rooted _ hrootedJ, goClean_rooted _ hrootedJ]
  unfold resKey
  rw [splitSlash_append]

theorem guard_pass_child (root : GoStr) (T : List GoStr) (name : GoStr)
    (hroot : startsWithSlash root = true)
    (hT : ∀ x ∈ T, strongSeg x) (hTn : ∀ x ∈ T, '/' ∉ x)
    (hnnil : name ≠ []) (hns : '/' ∉ name)
    (hguard : '/' :: joinSegs T = root ∨
      (rootWithSep root).isPrefixOf ('/' :: joinSegs T) = true) :
    (rootWithSep root).isPrefixOf ('/' :: joinSegs (T ++ [name])) = true := by
  by_cases hTne : T = []
  · subst hTne
    have hroot_slash : root = ['/'] := by
      obtain ⟨c, rt, hr⟩ : ∃ c rt, root = c :: rt := by
        cases root with
        | nil => simp [startsWithSlash] at hroot
        | cons c rt => exact ⟨c, rt, rfl⟩
      have hc : c = '/' := by
        rw [hr] at hroot
        simpa [startsWithSlash] using hroot.symm
      rcases hguard with h | h
      · exact h.symm
      · obtain ⟨t, ht⟩ := (isPrefixOf_true_iff _ _).mp h
        have hj0 : joinSegs ([] : List GoStr) = [] := rfl
        rw [hj0] at ht
        unfold rootWithSep at ht
        by_cases hew : endsWithSlash root = true
        · rw [if_pos hew, hr] at ht
          simp only [List.cons_append, List.cons.injEq] at ht
          have hrt : rt = [] := (List.append_eq_nil.mp ht.2).1
          rw [hr, hrt, hc]
        · rw [if_neg hew, hr] at ht
          simp only [List.cons_append, List.append_assoc, List.cons.injEq] at ht
          have h3 := (List.append_eq_nil.mp ht.2).2
          simp at h3
    rw [hroot_slash]
    have hrws : rootWithSep ['/'] = ['/'] := rfl
    rw [hrws]
    apply (isPrefixOf_true_iff _ _).mpr
    exact ⟨joinSegs ([] ++ [name]), rfl⟩
  · have hX : ('/' : Char) :: joinSegs (T ++ [name]) =
        ('/' :: joinSegs T) ++ '/' :: name := by
      rw [joinSegs_snoc T name hTne]
      rfl
    rcases hguard with h | h
    · have hew : endsWithSlash root = false := by
        rw [← h]
        exact endsWithSlash_render_false T hTne (fun x hx => (hT x hx).1) hTn
      have hrws : rootWithSep root = root ++ ['/'] := by
        unfold rootWithSep
        rw [hew]
        simp
      rw [hX, hrws, ← h]
      apply (isPrefixOf_true_iff _ _).mpr
      exact ⟨name, by simp⟩
    · obtain ⟨t, ht⟩ := (isPrefixOf_true_iff _ _).mp h
      rw [hX]
      apply (isPrefixOf_true_iff _ _).mpr
      exact ⟨t ++ '/' :: name, by rw [← List.append_assoc, ht]⟩

/-- C10 amended (the confinement that does hold): the upload handler joins
only `filepath.Base` of the client-supplied filename onto the target
directory; whenever that base name is a regular segment — not `"."`, not
`".."`, not `"/"` — the destination resolves to the direct child `name`
of the resolved target directory, so such a filename can never place the
file anywhere else.  (A base name of `".."` or `"."` does escape the target
directory; see the counterexample.) -/
theorem upload_base_name_confined (cwd root rel tdir filename name : GoStr)
    (hroot : startsWithSlash root = true)
    (hrel : startsWithSlash rel = false)
    (hres : resolve cwd root rel = .ok tdir)
    (hname : goBase filename = name)
    (hdot : name ≠ ['.']) (hdotdot : name ≠ ['.', '.']) (hslash : name ≠ ['/']) :
    ∃ dest, resolve cwd root (if rel = [] then name else goJoin2 rel name) = .ok dest ∧
      segsOf dest = segsOf tdir ++ [name] := by
  have hbase : goBase filename ≠ [] ∧ '/' ∉ goBase filename :=
    goBase_regular filename (by rw [hname]; exact hslash)
  rw [hname] at hbase
  obtain ⟨hnnil, hnns⟩ := hbase
  have hstrongN : strongSeg name := ⟨hnnil, hdot, hdotdot⟩
  have hkey : resKey root (if rel = [] then name else goJoin2 rel name) =
      resKey root rel ++ [name] := by
    by_cases hrelnil : rel = []
    · rw [if_pos hrelnil, hrelnil]
      unfold resKey
      rw [if_bool_false _ (startsWithSlash_false_of_noSlash name hnns)]
      have t2 : (if startsWithSlash ([] : GoStr) = true
          then ([] : GoStr).drop 1 else ([] : GoStr)) = ([] : GoStr) := rfl
      rw [t2, splitSlash_single name hnns]
      have t3 : splitSlash ([] : GoStr) = [[]] := rfl
      rw [t3, cleanSegs_snoc_strong true _ name hstrongN,
        cleanSegs_snoc_drop true _ [] (Or.inl rfl)]
    · rw [if_neg hrelnil]
      have hj : goJoin2 rel name = goClean (rel ++ '/' :: name) := by
        unfold goJoin2
        rw [if_neg (by simp [hrelnil]), if_neg hrelnil]
      have happne : rel ++ '/' :: name ≠ [] := by simp
      have hnr : startsWithSlash (rel ++ '/' :: name) = false := by
        rw [startsWithSlash_append_left rel _ hrelnil]
        exact hrel
      have hZok : ∀ x ∈ cleanSegs false (splitSlash rel), okSeg x :=
        cleanSegs_okSeg false _
      have hZns : ∀ x ∈ cleanSegs false (splitSlash rel), '/' ∉ x :=
        cleanSegs_noSlash false _ (mem_splitSlash_no_slash rel)
      have hall1 : ∀ x ∈ cleanSegs false (splitSlash rel) ++ [name], x ≠ [] := by
        intro x hx
        rcases List.mem_append.mp hx with h | h
        · exact (hZok x h).1
        · simp at h
          subst h
          exact hnnil
      have hall2 : ∀ x ∈ cleanSegs false (splitSlash rel) ++ [name], '/' ∉ x := by
        intro x hx
        rcases List.mem_append.mp hx with h | h
        · exact hZns x h
        · simp at h
          subst h
          exact hnns
      have hjp : goJoin2 rel name =
          joinSegs (cleanSegs false (splitSlash rel) ++ [name]) := by
        rw [hj]
        unfold goClean
        rw [if_neg happne, hnr, splitSlash_append, splitSlash_single name hnns,
          cleanSegs_snoc_strong false _ name hstrongN]
        unfold renderPath
        rw [if_neg (by simp)]
        rw [if_neg (by simp)]
      have hp_nr : startsWithSlash
          (joinSegs (cleanSegs false (splitSlash rel) ++ [name])) = false :=
        joinSegs_not_rooted _ (by simp) hall1 hall2
      have hnorm : cleanSegs true
          (splitSlash root ++ cleanSegs false (splitSlash rel)) =
          cleanSegs true (splitSlash root ++ splitSlash rel) := by
        show (runClean true []
            (splitSlash root ++ cleanSegs false (splitSlash rel))).reverse =
          (runClean true [] (splitSlash root ++ splitSlash rel)).reverse
        rw [runClean_append, runClean_append, runClean_normalize]
      unfold resKey
      rw [hjp, if_bool_false _ hp_nr,
        splitSlash_joinSegs _ (by simp) hall2,
        if_bool_false _ hrel, ← List.append_assoc,
        cleanSegs_snoc_strong true _ name hstrongN, hnorm]
  have htdirsh : tdir = '/' :: joinSegs (resKey root rel) :=
    resolve_ok_shape cwd root rel tdir hroot hres
  have hT : segsOf tdir = resKey root rel :=
    resolve_ok_segsOf cwd root rel tdir hroot hres
  have hguardT : tdir = root ∨ (rootWithSep root).isPrefixOf tdir = true := by
    by_contra hcon
    push_neg at hcon
    have hraweq : goAbs cwd (goClean (goJoin2 root
        (if startsWithSlash rel then rel.drop 1 else rel))) = tdir := by
      rw [resolve_raw_render cwd root rel hroot, ← htdirsh]
    have herr : resolve cwd root rel = .error .pathTraversal := by
      rw [resolve_guard, hraweq, if_pos ⟨hcon.1, hcon.2⟩]
    rw [herr] at hres
    cases hres
  rw [htdirsh] at hguardT
  have hpre : (rootWithSep root).isPrefixOf
      ('/' :: joinSegs (resKey root rel ++ [name])) = true :=
    guard_pass_child root (resKey root rel) name hroot
      (resKey_strong root rel) (resKey_noSlash root rel) hnnil hnns hguardT
  have hrawD : goAbs cwd (goClean (goJoin2 root
      (if startsWithSlash (if rel = [] then name else goJoin2 rel name) then
        (if rel = [] then name else goJoin2 rel name).drop 1
      else (if rel = [] then name else goJoin2 rel name)))) =
      '/' :: joinSegs (resKey root rel ++ [name]) := by
    rw [resolve_raw_render cwd root _ hroot, hkey]
  have hresD : resolve cwd root (if rel = [] then name else goJoin2 rel name) =
      .ok ('/' :: joinSegs (resKey root rel ++ [name])) := by
    rw [resolve_guard, hrawD, if_neg (fun hcon => hcon.2 hpre)]
  refine ⟨'/' :: joinSegs (resKey root rel ++ [name]), hresD, ?_⟩
  rw [hT]
  apply segsOf_render
  · intro x hx
    rcases List.mem_append.mp hx with h | h
    · exact (resKey_strong root rel x h).1
    · simp at h
      subst h
      exact hnnil
  · intro x hx
    rcases List.mem_append.mp hx with h | h
    · exact resKey_noSlash root rel x h
    · simp at h
      subst h
      exact hnns

/-- File system for the upload scenario: the root containing one
subdirectory `a`. -/
def fsUpload : FS :=
  [(["root".data], Node.dir), (["root".data, "a".data], Node.dir)]

/-- C10 counterexample: a multipart part whose client-supplied filename is
`".."`, uploaded with `overwrite=true` into the existing directory `a`,
is not created inside `a`: `Base("..") = ".."` joins to `"a/.." = "."`,
which resolves to the sandbox root itself, and the streamed bytes end up in
the file `/root.part` — a sibling of the root directory, outside the
sandbox — after the final rename onto the root directory fails. -/
theorem upload_dotdot_escapes :
    (handlerPostUpload wd0 rt0 fsUpload "a".data
        [⟨"..".data, ⟨[104], none, none⟩⟩] true).2 =
      [(["root.part".data], Node.file [104]), (["root".data], Node.dir),
        (["root".data, "a".data], Node.dir)] ∧
    lookupFS (handlerPostUpload wd0 rt0 fsUpload "a".data
        [⟨"..".data, ⟨[104], none, none⟩⟩] true).2 ["root.part".data] =
      some (Node.file [104]) ∧
    (["root".data, "a".data] : FsKey).isPrefixOf ["root.part".data] = false ∧
    (["root".data] : FsKey).isPrefixOf ["root.part".data] = false := by
  decide

/-- C10 amended witness: a hostile-looking filename `../../etc/passwd` has
base name `passwd`, and its upload destination under target `a` resolves to
`/root/a/passwd` — the direct child of the target directory. -/
theorem upload_base_name_confined_witness :
    goBase "../../etc/passwd".data = "passwd".data ∧
    (∃ dest, resolve wd0 rt0
        (if ("a".data : GoStr) = [] then "passwd".data
          else goJoin2 "a".data "passwd".data) = .ok dest ∧
      segsOf dest = segsOf "/root/a".data ++ ["passwd".data]) := by
  refine ⟨by decide, ?_⟩
  exact upload_base_name_confined wd0 rt0 "a".data "/root/a".data
    "../../etc/passwd".data "passwd".data
    (by decide) (by decide) (by decide) (by decide)
    (by decide) (by decide) (by decide)
